import Mathlib

/-!
Verification of the resume text-to-PDF layout engine
(`src/app/api/generate-dynamic-resume-pdf/route.ts`).

Modelling conventions:

* JavaScript strings are modelled as `List Char`; the JS helpers used by
  the route (`split`, `trim`, `join`, `startsWith`, `endsWith`, `slice`,
  `toUpperCase`, `toLowerCase`) are given explicit executable definitions
  below with the same semantics on those inputs.
* Every length constant in the source (page size, margins, font sizes,
  line heights, gaps) is an exact multiple of 0.1 PDF points, so all
  coordinates, sizes and widths are modelled as integers counting
  **tenths of a point**: a source constant `x` appears here as `10 * x`
  (e.g. `MARGIN_BOTTOM = 50` becomes `500`).  All cursor arithmetic in
  the source is then exact integer arithmetic.
* Font metrics come from pdf-lib (outside this repository), so text
  measurement is an abstract parameter `font : List Char → Int → Int`
  (string and size-in-tenths ↦ width-in-tenths).
-/

/-- Whitespace as JS `trim` / `\s` treats it (the characters that occur in
this program's inputs). -/
def isWsChar (c : Char) : Bool :=
  c == ' ' || c == '\t' || c == '\n' || c == '\r'

/-- JS `String.prototype.trim`. -/
def jsTrim (l : List Char) : List Char :=
  ((l.dropWhile isWsChar).reverse.dropWhile isWsChar).reverse

/-- Split a character list at every character satisfying `p`, keeping empty
pieces, like JS `String.prototype.split` with a single-character (class)
separator.  `splitOnP p []` is `[[]]`, matching `''.split(c) = ['']`. -/
def splitOnP (p : Char → Bool) : List Char → List (List Char)
  | [] => [[]]
  | x :: xs =>
    match splitOnP p xs with
    | [] => [[x]]
    | y :: ys => if p x then [] :: y :: ys else (x :: y) :: ys

/-- JS `s.split(c)` for a single-character separator. -/
def jsSplit (c : Char) (l : List Char) : List (List Char) :=
  splitOnP (· == c) l

/-- JS `Array.prototype.join(sep)`. -/
def joinSep (sep : List Char) : List (List Char) → List Char
  | [] => []
  | [w] => w
  | w :: v :: ws => w ++ sep ++ joinSep sep (v :: ws)

/-- A line is blank when its trimmed form is empty (JS string falsiness of
`line.trim()`). -/
def isBlankLine (l : List Char) : Bool :=
  jsTrim l == []

/-! ## Resume Parser (`parseResume`, route.ts lines 7–22) -/

/-- The header-collection loop of `parseResume`: walk the lines with their
index, pushing each non-blank trimmed line onto `info`; as soon as `info`
holds six entries, stop and record `bodyStart = idx + 1`.  If six entries
are never collected, `bodyStart` keeps its initial value `0`. -/
def headerScanAux : List (List Char) → Nat → List (List Char) → List (List Char) × Nat
  | [], _, info => (info, 0)
  | l :: rest, idx, info =>
    let info2 := if jsTrim l ≠ [] then info ++ [jsTrim l] else info
    if info2.length = 6 then (info2, idx + 1) else headerScanAux rest (idx + 1) info2

/-- Result of `parseResume`.  The six header fields come from positional
array destructuring in JS, so each is `none` (JS `undefined`) when fewer
than six non-blank lines were collected. -/
structure ParseResult where
  headline : Option (List Char)
  name : Option (List Char)
  email : Option (List Char)
  phone : Option (List Char)
  location : Option (List Char)
  linkedin : Option (List Char)
  body : List Char
deriving DecidableEq

/-- `parseResume`: collect the first six non-blank (trimmed) lines as the
header, then advance `bodyStart` past any blank lines (the `while` loop at
line 19) and rejoin the remaining lines with `\n`. -/
def parseResume (resumeText : List Char) : ParseResult :=
  let lines := jsSplit '\n' resumeText
  let scan := headerScanAux lines 0 []
  let info := scan.1
  let bodyStart := scan.2
  let bodyStart2 := bodyStart + ((lines.drop bodyStart).takeWhile isBlankLine).length
  { headline := info.get? 0, name := info.get? 1, email := info.get? 2,
    phone := info.get? 3, location := info.get? 4, linkedin := info.get? 5,
    body := joinSep ['\n'] (lines.drop bodyStart2) }

/-! ## Date Formatter (`formatDate`, route.ts lines 75–101) -/

/-- The fixed month-abbreviation table. -/
def monthNames : List (List Char) :=
  ["Jan".data, "Feb".data, "Mar".data, "Apr".data, "May".data, "Jun".data,
   "Jul".data, "Aug".data, "Sep".data, "Oct".data, "Nov".data, "Dec".data]

/-- The character class `[–-]` of the split regex: en-dash or hyphen. -/
def isDashChar (c : Char) : Bool :=
  c == '–' || c == '-'

/-- The test `part.match(/^\d{2}\/\d{4}$/)`. -/
def matchMMYYYY : List Char → Bool
  | [a, b, s, c, d, e, f] =>
    a.isDigit && b.isDigit && s == '/' && c.isDigit && d.isDigit && e.isDigit && f.isDigit
  | _ => false

/-- JS `parseInt` on the two leading digit characters of an `MM/YYYY` part. -/
def twoDigitVal (l : List Char) : Nat :=
  match l with
  | a :: b :: _ => (a.toNat - 48) * 10 + (b.toNat - 48)
  | [a] => a.toNat - 48
  | [] => 0

/-- Reformat one part already known to match `MM/YYYY`:
`monthNames[parseInt(month) - 1]` followed by a space and the year.  A
month outside 1–12 indexes out of the table; JS then interpolates
`undefined`, producing the literal text `undefined`. -/
def formatMMYYYY (p : List Char) : List Char :=
  let mm := twoDigitVal (p.take 2)
  let year := p.drop 3
  let idx : Int := (mm : Int) - 1
  (if idx < 0 then "undefined".data
   else ((monthNames.get? idx.toNat).getD "undefined".data)) ++ ' ' :: year

/-- `formatDate`: if the string contains a dash (en-dash or hyphen), split
on every dash, trim each part, reformat each `MM/YYYY` part, and rejoin
with `" – "` (en-dash with spaces); a lone `MM/YYYY` is reformatted
directly; anything else passes through unchanged. -/
def formatDate (dateStr : List Char) : List Char :=
  if dateStr.any (fun c => c == '–') || dateStr.any (fun c => c == '-') then
    joinSep " – ".data
      (((splitOnP isDashChar dateStr).map jsTrim).map
        (fun part => if matchMMYYYY part then formatMMYYYY part else part))
  else if matchMMYYYY dateStr then formatMMYYYY dateStr
  else dateStr

/-! ## Line Wrapper (`wrapText`, route.ts lines 104–120) -/

/-- The loop of `wrapText`: `lines` and `currentLine` are the accumulator;
for each word the candidate line is measured, and committed when it
overflows while the current line is non-empty (JS string truthiness). -/
def wrapAux (font : List Char → Int → Int) (size maxWidth : Int) :
    List (List Char) → List (List Char) → List Char → List (List Char)
  | [], lines, current => if current = [] then lines else lines ++ [current]
  | w :: ws, lines, current =>
    let testLine := if current = [] then w else current ++ ' ' :: w
    if maxWidth < font testLine size ∧ current ≠ [] then
      wrapAux font size maxWidth ws (lines ++ [current]) w
    else
      wrapAux font size maxWidth ws lines testLine

/-- `wrapText`: greedy word wrap of `text` to `maxWidth` (tenths of a
point) at the given font and size. -/
def wrapText (text : List Char) (font : List Char → Int → Int) (size maxWidth : Int) :
    List (List Char) :=
  wrapAux font size maxWidth (jsSplit ' ' text) [] []

/-- A concrete font for witnesses and counterexamples: each character is
half the font size wide (a Helvetica-like average; actual metrics live in
pdf-lib outside this repository). -/
def demoFont (s : List Char) (size : Int) : Int :=
  s.length * size / 2

/-! ## Inline Emphasis Renderer (`drawTextWithBold`, route.ts lines 122–146) -/

/-- Match the regex `\*\*[^*]+\*\*` at the start of `l`: two asterisks, a
maximal non-empty run of non-asterisks, two asterisks.  (`[^*]+` cannot
backtrack usefully here: shortening the run leaves a non-asterisk where
`\*\*` must match.)  Returns the matched text and the remainder. -/
def matchBoldAt : List Char → Option (List Char × List Char)
  | '*' :: '*' :: rest =>
    let content := rest.takeWhile (fun c => c != '*')
    match content, rest.dropWhile (fun c => c != '*') with
    | [], _ => none
    | _, '*' :: '*' :: tail => some ('*' :: '*' :: content ++ "**".data, tail)
    | _, _ => none
  | _ => none

/-- Scanner for `text.split(/(\*\*[^*]+\*\*)/g)`: at each position, try a
match; on success emit the pending gap and the match and continue after it,
otherwise shift one character into the gap.  `fuel` bounds recursion by the
input length (the zero case is unreachable when `fuel ≥ l.length`). -/
def splitBoldAux : Nat → List Char → List Char → List (List Char)
  | 0, l, gap => [gap ++ l]
  | fuel + 1, l, gap =>
    match matchBoldAt l, l with
    | some (m, tail), _ => gap :: m :: splitBoldAux fuel tail []
    | none, [] => [gap]
    | none, ch :: rest => splitBoldAux fuel rest (gap ++ [ch])

/-- JS `text.split(/(\*\*[^*]+\*\*)/g)`: the gaps between matches
interleaved with the captured matches themselves (empty gaps included). -/
def jsSplitBoldParts (l : List Char) : List (List Char) :=
  splitBoldAux l.length l []

/-- The test `part.startsWith('**') && part.endsWith('**')`. -/
def isBoldPart (p : List Char) : Bool :=
  p.take 2 == "**".data && p.drop (p.length - 2) == "**".data

/-- JS `part.slice(2, -2)`. -/
def sliceInner (p : List Char) : List Char :=
  (p.take (p.length - 2)).drop 2

/-- One drawn run of `drawTextWithBold`: x-offset (tenths), content, and
whether the bold face was used. -/
structure Run where
  x : Int
  content : List Char
  bold : Bool
deriving DecidableEq

/-- The width a run advances the cursor by: its content measured at the
face it was drawn with. -/
def runWidth (fW fbW : List Char → Int → Int) (size : Int) (r : Run) : Int :=
  if r.bold then fbW r.content size else fW r.content size

/-- One iteration of the `drawTextWithBold` loop: emit a run for `part`
at the pending offset (bold with delimiters sliced off when the part
starts and ends with `**`) and advance the offset by the measured width
of what was drawn. -/
def dtwbStep (fW fbW : List Char → Int → Int) (size : Int)
    (acc : List Run × Int) (part : List Char) : List Run × Int :=
  if isBoldPart part then
    (acc.1 ++ [⟨acc.2, sliceInner part, true⟩], acc.2 + fbW (sliceInner part) size)
  else
    (acc.1 ++ [⟨acc.2, part, false⟩], acc.2 + fW part size)

/-- `drawTextWithBold`: split on `**bold**` spans and emit one run per
part, bold parts stripped of their delimiters, each at the accumulated
x-offset. -/
def drawTextWithBold (fW fbW : List Char → Int → Int) (text : List Char)
    (x size : Int) : List Run :=
  ((jsSplitBoldParts text).foldl (dtwbStep fW fbW size) ([], x)).1

/-- Remove every occurrence of the two-character sequence `**`, scanning
left to right: the claim's reading of "the line with all `**` markers
removed". -/
def removeStarPairs : List Char → List Char
  | [] => []
  | [c] => [c]
  | c1 :: c2 :: rest =>
    if c1 = '*' ∧ c2 = '*' then removeStarPairs rest
    else c1 :: removeStarPairs (c2 :: rest)

/-- Does the text contain an occurrence of `**` (two adjacent
asterisks)?  Used to state which lines carry a `**` marker at all. -/
def hasStarPair : List Char → Bool
  | [] => false
  | [_] => false
  | c1 :: c2 :: rest => (c1 == '*' && c2 == '*') || hasStarPair (c2 :: rest)

/-! ## Body Classifier (route.ts lines 232–317, the per-line `if` chain) -/

/-- Is `pat` the segment of `l` starting at index `i`? -/
def matchesAt (pat l : List Char) (i : Nat) : Bool :=
  (l.drop i).take pat.length == pat

/-- The test regex `/ at .+:.+/`: somewhere in the line, `" at "`, then at
least one character, then `':'`, then at least one character.  (`.`
excludes newlines; body lines are newline-free since they come from a
split on `'\n'`.) -/
def jobTest (l : List Char) : Bool :=
  (List.range l.length).any fun i =>
    matchesAt " at ".data l i &&
    ((List.range l.length).any fun k =>
      decide (i + 5 ≤ k) && (l.get? k == some ':') && decide (k + 1 < l.length))

/-- All splits of `l` around an occurrence of `sep`, in order of the
occurrence position (overlapping occurrences included, as regex scanning
retries at every start position). -/
def splitsAt (sep l : List Char) : List (List Char × List Char) :=
  (List.range (l.length + 1)).filterMap fun i =>
    if matchesAt sep l i then some (l.take i, l.drop (i + sep.length)) else none

/-- The tail `\s*(.+)$` of the capture regex applied to what follows the
colon: greedy whitespace skip, then at least one character; when the rest
is whitespace-only the `\s*` gives one character back so `(.+)` can match.
`none` when the rest is empty. -/
def matchTailPeriod (rest : List Char) : Option (List Char) :=
  if rest = [] then none
  else
    let w := rest.dropWhile isWsChar
    if w = [] then some (rest.drop (rest.length - 1)) else some w

/-- The capture regex `/^(.+?) at (.+?):\s*(.+)$/`: lazy title (shortest
non-empty prefix before an `" at "`), lazy company (shortest non-empty
prefix before a `':'`), then the period tail; later occurrences are tried
on failure, exactly as the backtracking engine does. -/
def jobMatch (l : List Char) : Option (List Char × List Char × List Char) :=
  ((splitsAt " at ".data l).filter (fun pr => pr.1 ≠ [])).findSome? fun pr =>
    ((splitsAt ":".data pr.2).filter (fun qr => qr.1 ≠ [])).findSome? fun qr =>
      (matchTailPeriod qr.2).map fun p => (pr.1, qr.1, p)

/-- The classification implicit in the body loop's `if` chain, in source
order: blank, section header (trimmed line ends with `':'`), job
experience (test regex passes; `jobUnmatched` is the source's case where
the test passes but the capture regex returns `null` and nothing at all is
drawn), skills category (starts with `'·'`; note the source stores
`line.trim()` — the glyph is **not** stripped), else plain text. -/
inductive ClassifiedLine where
  | blank : ClassifiedLine
  | sectionHeader (text : List Char) : ClassifiedLine
  | jobEntry (title company period : List Char) : ClassifiedLine
  | jobUnmatched : ClassifiedLine
  | skillsCategory (name : List Char) : ClassifiedLine
  | plain (text : List Char) : ClassifiedLine
deriving DecidableEq

/-- Classify one raw body line as the loop at route.ts lines 232–317 does. -/
def classifyBodyLine (raw : List Char) : ClassifiedLine :=
  let line := jsTrim raw
  if line = [] then .blank
  else if line.getLast? = some ':' then .sectionHeader line
  else if jobTest line then
    match jobMatch line with
    | some (t, c, p) => .jobEntry t c p
    | none => .jobUnmatched
  else if line.take 1 = ['·'] then .skillsCategory (jsTrim line)
  else .plain line

/-! ## Page Flow Engine (`generateResumePdf`, route.ts lines 149–352)

All lengths are in tenths of a point (see the module comment): a source
constant `x` appears as `10 * x`. -/

def MARGIN_TOP : Int := 720
def MARGIN_BOTTOM : Int := 500
def MARGIN_LEFT : Int := 500
def MARGIN_RIGHT : Int := 500
def PAGE_WIDTH : Int := 5950
def PAGE_HEIGHT : Int := 8420
def CONTENT_WIDTH : Int := PAGE_WIDTH - MARGIN_LEFT - MARGIN_RIGHT
def NAME_SIZE : Int := 240
def CONTACT_SIZE : Int := 90
def SECTION_HEADER_SIZE : Int := 140
def BODY_SIZE : Int := 110
def NAME_LINE_HEIGHT : Int := NAME_SIZE * 8 / 10
def CONTACT_LINE_HEIGHT : Int := CONTACT_SIZE * 15 / 10
def SECTION_LINE_HEIGHT : Int := SECTION_HEADER_SIZE * 15 / 10
def BODY_LINE_HEIGHT : Int := BODY_SIZE * 14 / 10

/-- One drawing operation: a text draw (`page.drawText`, with the page it
lands on, position, content, size, face) or the horizontal rule
(`page.drawLine`). -/
inductive Op where
  | text (page : Nat) (x y : Int) (content : List Char) (size : Int) (bold : Bool) : Op
  | rule (page : Nat) (y : Int) : Op
deriving DecidableEq

/-- The y-coordinate an operation is drawn at. -/
def opY : Op → Int
  | .text _ _ y _ _ _ => y
  | .rule _ y => y

/-- Render state: the pages created so far (each with its size), the index
of the current page, the cursor `y`, the emitted operations, and the
skills-tracking mode with its accumulation buffer. -/
structure RState where
  pages : List (Int × Int)
  cur : Nat
  y : Int
  ops : List Op
  inSkillsSection : Bool
  skills : List (List Char)
deriving DecidableEq

/-- The pagination check (route.ts lines 244–247 etc.): if the cursor fell
below the bottom margin, append a new page of the same fixed size and
reset the cursor to the top margin. -/
def checkPage (s : RState) : RState :=
  if s.y < MARGIN_BOTTOM then
    { s with pages := s.pages ++ [(PAGE_WIDTH, PAGE_HEIGHT)],
             cur := s.pages.length,
             y := PAGE_HEIGHT - MARGIN_TOP }
  else s

/-- A wrapped-lines drawing loop with the per-line pagination check: for
each wrapped line, emit its operations (via `mk`, which receives the
current page and cursor), advance the cursor by `h`, then run the check. -/
def drawBlock (mk : Nat → Int → List Char → List Op) (h : Int)
    (ls : List (List Char)) (s : RState) : RState :=
  ls.foldl
    (fun st l => checkPage { st with ops := st.ops ++ mk st.cur st.y l, y := st.y - h })
    s

/-- The header drawing loops (name, contact) have no pagination check. -/
def drawBlockNoCheck (mk : Nat → Int → List Char → List Op) (h : Int)
    (ls : List (List Char)) (s : RState) : RState :=
  ls.foldl (fun st l => { st with ops := st.ops ++ mk st.cur st.y l, y := st.y - h }) s

/-- JS truthiness of a possibly-undefined string. -/
def jsTruthy : Option (List Char) → Bool
  | none => false
  | some s => s != []

/-- Process one body line (the body of the `for` loop at route.ts lines
232–335), including the end-of-iteration pagination check at line 331.
Blank lines `continue`, skipping that check. -/
def processBodyLine (fW fbW : List Char → Int → Int) (s : RState) (raw : List Char) :
    RState :=
  match classifyBodyLine raw with
  | .blank => { s with y := s.y - 60 }
  | .sectionHeader line =>
    let s1 := { s with y := s.y - 120 }
    let s2 := drawBlock (fun pg y l => [.text pg MARGIN_LEFT y l SECTION_HEADER_SIZE true])
      SECTION_LINE_HEIGHT (wrapText line fbW SECTION_HEADER_SIZE CONTENT_WIDTH) s1
    let s3 := if line.map Char.toLower = "skills:".data
      then { s2 with inSkillsSection := true } else s2
    checkPage s3
  | .jobEntry t c p =>
    let s1 := { s with y := s.y - 80 }
    let s2 := drawBlock (fun pg y l => [.text pg (MARGIN_LEFT + 100) y l (BODY_SIZE + 10) true])
      (BODY_LINE_HEIGHT + 20) (wrapText (jsTrim t) fbW (BODY_SIZE + 10) (CONTENT_WIDTH - 100)) s1
    let s3 := drawBlock (fun pg y l => [.text pg (MARGIN_LEFT + 100) y l BODY_SIZE false])
      BODY_LINE_HEIGHT (wrapText (jsTrim c) fW BODY_SIZE (CONTENT_WIDTH - 100)) s2
    let s4 := drawBlock (fun pg y l => [.text pg (MARGIN_LEFT + 100) y l (BODY_SIZE - 10) false])
      (BODY_LINE_HEIGHT - 20)
      (wrapText (formatDate (jsTrim p)) fW (BODY_SIZE - 10) (CONTENT_WIDTH - 100)) s3
    checkPage { s4 with y := s4.y - 40 }
  | .jobUnmatched => checkPage s
  | .skillsCategory name =>
    checkPage (drawBlock
      (fun pg y l => [.text pg (MARGIN_LEFT + 100) y l (BODY_SIZE + 10) true])
      (BODY_LINE_HEIGHT + 20) (wrapText name fbW (BODY_SIZE + 10) (CONTENT_WIDTH - 200)) s)
  | .plain line =>
    checkPage (drawBlock
      (fun pg y l => (drawTextWithBold fW fbW l (MARGIN_LEFT + 100) BODY_SIZE).map
        (fun r => Op.text pg r.x y r.content BODY_SIZE r.bold))
      BODY_LINE_HEIGHT (wrapText line fW BODY_SIZE (CONTENT_WIDTH - 100)) s)

/-- The initial document: one A4 page, cursor at the top margin. -/
def initState : RState :=
  { pages := [(PAGE_WIDTH, PAGE_HEIGHT)], cur := 0, y := PAGE_HEIGHT - MARGIN_TOP,
    ops := [], inSkillsSection := false, skills := [] }

/-- The header block (route.ts lines 189–226): the uppercased name (no
pagination check), the contact line joined with `" • "`, and the
horizontal rule.  Parts that are JS-falsy are skipped. -/
def renderHeader (fW fbW : List Char → Int → Int) (pr : ParseResult) : RState :=
  let s1 :=
    if jsTruthy pr.name then
      let n := (pr.name.getD []).map Char.toUpper
      let s := drawBlockNoCheck (fun pg y l => [.text pg MARGIN_LEFT y l NAME_SIZE true])
        NAME_LINE_HEIGHT (wrapText n fbW NAME_SIZE CONTENT_WIDTH) initState
      { s with y := s.y - 20 }
    else { initState with y := initState.y - NAME_LINE_HEIGHT }
  let contactParts :=
    (([pr.location, pr.phone, pr.email, pr.linkedin].filterMap id).filter (fun x => x ≠ []))
  let s2 :=
    if contactParts ≠ [] then
      let contactLine := joinSep " • ".data contactParts
      let s := drawBlockNoCheck (fun pg y l => [.text pg MARGIN_LEFT y l CONTACT_SIZE false])
        CONTACT_LINE_HEIGHT (wrapText contactLine fW CONTACT_SIZE CONTENT_WIDTH) s1
      { s with y := s.y - 40 }
    else s1
  let s3 := { s2 with ops := s2.ops ++ [Op.rule s2.cur s2.y] }
  { s3 with y := s3.y - 160 }

/-- Everything up to the end of the body loop: parse, draw the header,
then fold the body lines through `processBodyLine`. -/
def renderBody (fW fbW : List Char → Int → Int) (resumeText : List Char) : RState :=
  let pr := parseResume resumeText
  (jsSplit '\n' pr.body).foldl (processBodyLine fW fbW) (renderHeader fW fbW pr)

/-- The end-of-document branch (route.ts lines 337–349): if the document
ended in the skills section with a non-empty accumulated-skills buffer,
flow the space-joined skills as one more wrapped block. -/
def finalSkills (fW : List Char → Int → Int) (s : RState) : RState :=
  if s.inSkillsSection ∧ s.skills ≠ [] then
    drawBlock (fun pg y l => [.text pg (MARGIN_LEFT + 200) y l BODY_SIZE false])
      BODY_LINE_HEIGHT
      (wrapText (joinSep [' '] s.skills) fW BODY_SIZE (CONTENT_WIDTH - 200)) s
  else s

/-- `generateResumePdf` as a layout trace: header, body loop, final
skills branch. -/
def generateResumePdf (fW fbW : List Char → Int → Int) (resumeText : List Char) : RState :=
  finalSkills fW (renderBody fW fbW resumeText)

/-- The total cursor drop one body-loop iteration applies when no page
break fires, read off the loop body branch by branch: the fixed pre-gaps
and per-wrapped-line advances of `processBodyLine` (route.ts lines
232–335). -/
def lineDrop (fW fbW : List Char → Int → Int) (raw : List Char) : Int :=
  match classifyBodyLine raw with
  | .blank => 60
  | .sectionHeader line =>
    120 + SECTION_LINE_HEIGHT
      * ((wrapText line fbW SECTION_HEADER_SIZE CONTENT_WIDTH).length : Int)
  | .jobEntry t c p =>
    80 + (BODY_LINE_HEIGHT + 20)
        * ((wrapText (jsTrim t) fbW (BODY_SIZE + 10) (CONTENT_WIDTH - 100)).length : Int)
      + BODY_LINE_HEIGHT
        * ((wrapText (jsTrim c) fW BODY_SIZE (CONTENT_WIDTH - 100)).length : Int)
      + (BODY_LINE_HEIGHT - 20)
        * ((wrapText (formatDate (jsTrim p)) fW (BODY_SIZE - 10)
            (CONTENT_WIDTH - 100)).length : Int)
      + 40
  | .jobUnmatched => 0
  | .skillsCategory name =>
    (BODY_LINE_HEIGHT + 20)
      * ((wrapText name fbW (BODY_SIZE + 10) (CONTENT_WIDTH - 200)).length : Int)
  | .plain line =>
    BODY_LINE_HEIGHT * ((wrapText line fW BODY_SIZE (CONTENT_WIDTH - 100)).length : Int)

/-! ## HTTP boundary (`POST`, route.ts lines 354–556)

The language-model completion is an injected input (`completion`), as is
the configured credential; the response is modelled by its status, headers
and which external effects were reached. -/

/-- The modelled HTTP response, together with whether the model call was
reached and the generated document, if any. -/
structure PostResponse where
  status : Nat
  contentType : List Char
  contentDisposition : Option (List Char)
  errorBody : Option (List Char)
  pdf : Option RState
  modelCalled : Bool
deriving DecidableEq

/-- The 400 body for missing required fields. -/
def missingFieldsJson : List Char :=
  "\x7b\"error\":\"Missing required fields: job_description, company, role\"\x7d".data

/-- `company.replace(/[^a-zA-Z0-9_]/g, '_')`. -/
def sanitizeFile (s : List Char) : List Char :=
  s.map fun c => if c.isAlpha || c.isDigit || c == '_' then c else '_'

/-- `POST`: validate the three form fields (JS falsiness: absent or
empty), check the credential, take the completion content (empty on a
missing message), and on success build the PDF and the sanitized
attachment filename. -/
def POST (job_description company role openaiKey completion : Option (List Char))
    (fW fbW : List Char → Int → Int) : PostResponse :=
  if ¬ jsTruthy job_description ∨ ¬ jsTruthy company ∨ ¬ jsTruthy role then
    { status := 400, contentType := "application/json".data, contentDisposition := none,
      errorBody := some missingFieldsJson, pdf := none, modelCalled := false }
  else if ¬ jsTruthy openaiKey then
    { status := 500, contentType := "application/json".data, contentDisposition := none,
      errorBody := some "\x7b\"error\":\"OpenAI API key not configured\"\x7d".data,
      pdf := none, modelCalled := false }
  else
    let tailoredResume := completion.getD []
    if tailoredResume = [] then
      { status := 500, contentType := "application/json".data, contentDisposition := none,
        errorBody := some "\x7b\"error\":\"Failed to generate tailored resume content\"\x7d".data,
        pdf := none, modelCalled := true }
    else
      let fileBase := "Louis_Bailey_".data ++ sanitizeFile (company.getD [])
        ++ ['_'] ++ sanitizeFile (role.getD [])
      { status := 200, contentType := "application/pdf".data,
        contentDisposition :=
          some ("attachment; filename=\"".data ++ fileBase ++ ".pdf\"".data),
        errorBody := none,
        pdf := some (generateResumePdf fW fbW tailoredResume), modelCalled := true }

/-- A stub six-line header plus a short body, for concrete runs. -/
def stubResume : List Char := "H\nN\nE\nP\nL\nK\nSummary:\nBuilt APIs".data

/-- A resume whose body is a run of blank lines (each moving the cursor
down 6 points with no pagination check) followed by one plain line. -/
def overflowResume : List Char :=
  joinSep ['\n']
    (["H".data, "N".data, "E".data, "P".data, "L".data, "K".data, "x".data]
      ++ List.replicate 110 ([] : List Char) ++ ["a".data])

/-- A resume with 46 one-word body lines: enough drawn height to overflow
one page. -/
def longResume : List Char :=
  joinSep ['\n']
    (["H".data, "N".data, "E".data, "P".data, "L".data, "K".data]
      ++ List.replicate 46 "a".data)

set_option maxRecDepth 100000

/-! ## Helper lemmas -/

theorem drop_length_takeWhile {α : Type} (p : α → Bool) :
    ∀ l : List α, l.drop (l.takeWhile p).length = l.dropWhile p := by
  intro l
  induction l with
  | nil => rfl
  | cons x xs ih =>
    by_cases h : p x <;> simp [List.takeWhile_cons, List.dropWhile_cons, h, ih]

theorem mem_dropWhile_of_neg {α : Type} (p : α → Bool) :
    ∀ (l : List α) (x : α), x ∈ l → p x = false → x ∈ l.dropWhile p := by
  intro l
  induction l with
  | nil => intro x hx; cases hx
  | cons y ys ih =>
    intro x hx hpx
    by_cases h : p y
    · rcases List.mem_cons.mp hx with rfl | hx2
      · rw [h] at hpx; cases hpx
      · simpa [List.dropWhile_cons, h] using ih x hx2 hpx
    · simpa [List.dropWhile_cons, h] using hx

theorem headerScan_short :
    ∀ (ls : List (List Char)) (idx : Nat) (info : List (List Char)),
      info.length + (ls.filter (fun l => !isBlankLine l)).length < 6 →
      headerScanAux ls idx info
        = (info ++ (ls.filter (fun l => !isBlankLine l)).map jsTrim, 0) := by
  intro ls
  induction ls with
  | nil => intro idx info _; simp [headerScanAux]
  | cons l rest ih =>
    intro idx info hlt
    by_cases hl : jsTrim l = []
    · have hb : isBlankLine l = true := by simp [isBlankLine, hl]
      have hfil : (l :: rest).filter (fun l => !isBlankLine l)
          = rest.filter (fun l => !isBlankLine l) := by
        simp [List.filter_cons, hb]
      rw [hfil] at hlt
      have hne : info.length ≠ 6 := by omega
      have hstep : headerScanAux (l :: rest) idx info = headerScanAux rest (idx + 1) info := by
        simp [headerScanAux, hl, hne]
      rw [hstep, hfil]
      exact ih (idx + 1) info hlt
    · have hb : isBlankLine l = false := by simp [isBlankLine, hl]
      have hfil : (l :: rest).filter (fun l => !isBlankLine l)
          = l :: rest.filter (fun l => !isBlankLine l) := by
        simp [List.filter_cons, hb]
      rw [hfil] at hlt
      simp only [List.length_cons] at hlt
      have hlen2 : (info ++ [jsTrim l]).length
          + (rest.filter (fun l => !isBlankLine l)).length < 6 := by
        simp only [List.length_append, List.length_cons, List.length_nil]
        omega
      have hne : ¬ info.length + 1 = 6 := by omega
      have hstep : headerScanAux (l :: rest) idx info
          = headerScanAux rest (idx + 1) (info ++ [jsTrim l]) := by
        simp [headerScanAux, hl, hne]
      rw [hstep, hfil, ih (idx + 1) (info ++ [jsTrim l]) hlen2]
      simp

/-! ## C1 / C10: the Resume Parser -/

theorem headerScanAux_blanks :
    ∀ (bl : List (List Char)), (∀ l ∈ bl, jsTrim l = []) →
    ∀ (rest : List (List Char)) (idx : Nat) (info : List (List Char)), info.length < 6 →
      headerScanAux (bl ++ rest) idx info = headerScanAux rest (idx + bl.length) info := by
  intro bl
  induction bl with
  | nil => intro _ rest idx info _; simp
  | cons l bl2 ih =>
    intro hbl rest idx info hlen
    have hl : jsTrim l = [] := hbl l (List.mem_cons_self l bl2)
    have hne : ¬ info.length = 6 := by omega
    have hstep : headerScanAux ((l :: bl2) ++ rest) idx info
        = headerScanAux (bl2 ++ rest) (idx + 1) info := by
      simp [headerScanAux, hl, hne]
    rw [hstep, ih (fun x hx => hbl x (List.mem_cons_of_mem l hx)) rest (idx + 1) info hlen,
      show idx + (l :: bl2).length = idx + 1 + bl2.length from by
        simp only [List.length_cons]; omega]

theorem headerScanAux_push (a : List Char) (rest : List (List Char)) (idx : Nat)
    (info : List (List Char)) (ha : jsTrim a ≠ []) (hlen : ¬ info.length + 1 = 6) :
    headerScanAux (a :: rest) idx info = headerScanAux rest (idx + 1) (info ++ [jsTrim a]) := by
  simp [headerScanAux, ha, hlen]

theorem headerScanAux_stop (a : List Char) (rest : List (List Char)) (idx : Nat)
    (info : List (List Char)) (ha : jsTrim a ≠ []) (hlen : info.length + 1 = 6) :
    headerScanAux (a :: rest) idx info = (info ++ [jsTrim a], idx + 1) := by
  simp [headerScanAux, ha, hlen]

/-- One header-collection block: skip a run of blank lines, then collect
one non-blank line (not yet the sixth). -/
theorem headerScanAux_block (bl : List (List Char)) (hbl : ∀ l ∈ bl, jsTrim l = [])
    (a : List Char) (ha : jsTrim a ≠ []) (rest : List (List Char)) (idx : Nat)
    (info : List (List Char)) (hlen : info.length + 1 < 6) :
    headerScanAux (bl ++ a :: rest) idx info
      = headerScanAux rest (idx + bl.length + 1) (info ++ [jsTrim a]) := by
  rw [headerScanAux_blanks bl hbl (a :: rest) idx info (by omega),
    headerScanAux_push a rest (idx + bl.length) info ha (by omega)]

/-- The final header-collection block: skip blanks, collect the sixth
non-blank line, and stop with `bodyStart` just past it. -/
theorem headerScanAux_last (bl : List (List Char)) (hbl : ∀ l ∈ bl, jsTrim l = [])
    (a : List Char) (ha : jsTrim a ≠ []) (rest : List (List Char)) (idx : Nat)
    (info : List (List Char)) (hlen : info.length + 1 = 6) :
    headerScanAux (bl ++ a :: rest) idx info = (info ++ [jsTrim a], idx + bl.length + 1) := by
  rw [headerScanAux_blanks bl hbl (a :: rest) idx info (by omega),
    headerScanAux_stop a rest (idx + bl.length) info ha hlen]

theorem drop_append_cons {α : Type} :
    ∀ (bl : List α) (x : α) (xs : List α) (n : Nat),
      (bl ++ x :: xs).drop (bl.length + (1 + n)) = xs.drop n := by
  intro bl
  induction bl with
  | nil =>
    intro x xs n
    show (x :: xs).drop (0 + (1 + n)) = xs.drop n
    rw [show 0 + (1 + n) = n + 1 from by omega, List.drop_succ_cons]
  | cons y bl2 ih =>
    intro x xs n
    rw [show (y :: bl2).length + (1 + n) = (bl2.length + (1 + n)) + 1 from by
      simp only [List.length_cons]; omega]
    show (y :: (bl2 ++ x :: xs)).drop ((bl2.length + (1 + n)) + 1) = xs.drop n
    rw [List.drop_succ_cons]
    exact ih x xs n

/-- C1: for every input text whose first six non-blank lines are
`a b c d e f` (with arbitrary runs `u0 … u5` of blank lines before and
among them), `parseResume` returns exactly those six lines, trimmed, as
the header fields in the fixed positional order headline, name, email,
phone, location, link, and the returned body text excludes those six
lines and any blank lines immediately following the sixth. -/
theorem parseResume_six_header_lines (t a b c d e f : List Char)
    (u0 u1 u2 u3 u4 u5 rest : List (List Char))
    (hsplit : jsSplit '\n' t
      = u0 ++ a :: (u1 ++ b :: (u2 ++ c :: (u3 ++ d :: (u4 ++ e :: (u5 ++ f :: rest))))))
    (hu0 : ∀ l ∈ u0, jsTrim l = []) (hu1 : ∀ l ∈ u1, jsTrim l = [])
    (hu2 : ∀ l ∈ u2, jsTrim l = []) (hu3 : ∀ l ∈ u3, jsTrim l = [])
    (hu4 : ∀ l ∈ u4, jsTrim l = []) (hu5 : ∀ l ∈ u5, jsTrim l = [])
    (ha : jsTrim a ≠ []) (hb : jsTrim b ≠ []) (hc : jsTrim c ≠ [])
    (hd : jsTrim d ≠ []) (he : jsTrim e ≠ []) (hf : jsTrim f ≠ []) :
    (parseResume t).headline = some (jsTrim a) ∧
    (parseResume t).name = some (jsTrim b) ∧
    (parseResume t).email = some (jsTrim c) ∧
    (parseResume t).phone = some (jsTrim d) ∧
    (parseResume t).location = some (jsTrim e) ∧
    (parseResume t).linkedin = some (jsTrim f) ∧
    (parseResume t).body = joinSep ['\n'] (rest.dropWhile isBlankLine) := by
  have hscan : headerScanAux
      (u0 ++ a :: (u1 ++ b :: (u2 ++ c :: (u3 ++ d :: (u4 ++ e :: (u5 ++ f :: rest)))))) 0 []
      = ([jsTrim a, jsTrim b, jsTrim c, jsTrim d, jsTrim e, jsTrim f],
         0 + u0.length + 1 + u1.length + 1 + u2.length + 1 + u3.length + 1
           + u4.length + 1 + u5.length + 1) := by
    rw [headerScanAux_block u0 hu0 a ha _ 0 [] (by simp),
      headerScanAux_block u1 hu1 b hb _ _ _ (by simp),
      headerScanAux_block u2 hu2 c hc _ _ _ (by simp),
      headerScanAux_block u3 hu3 d hd _ _ _ (by simp),
      headerScanAux_block u4 hu4 e he _ _ _ (by simp),
      headerScanAux_last u5 hu5 f hf _ _ _ (by simp)]
    simp
  have hdropB : ∀ n : Nat,
      (u0 ++ a :: (u1 ++ b :: (u2 ++ c :: (u3 ++ d :: (u4 ++ e :: (u5 ++ f :: rest)))))).drop
        (0 + u0.length + 1 + u1.length + 1 + u2.length + 1 + u3.length + 1
          + u4.length + 1 + u5.length + 1 + n) = rest.drop n := by
    intro n
    rw [show 0 + u0.length + 1 + u1.length + 1 + u2.length + 1 + u3.length + 1
        + u4.length + 1 + u5.length + 1 + n
        = u0.length + (1 + (u1.length + (1 + (u2.length + (1 + (u3.length + (1
          + (u4.length + (1 + (u5.length + (1 + n))))))))))) from by omega]
    rw [drop_append_cons, drop_append_cons, drop_append_cons, drop_append_cons,
      drop_append_cons, drop_append_cons]
  have hdrop0 : (u0 ++ a :: (u1 ++ b :: (u2 ++ c :: (u3 ++ d :: (u4 ++ e ::
      (u5 ++ f :: rest)))))).drop
        (0 + u0.length + 1 + u1.length + 1 + u2.length + 1 + u3.length + 1
          + u4.length + 1 + u5.length + 1) = rest := by
    rw [show 0 + u0.length + 1 + u1.length + 1 + u2.length + 1 + u3.length + 1
        + u4.length + 1 + u5.length + 1
        = u0.length + (1 + (u1.length + (1 + (u2.length + (1 + (u3.length + (1
          + (u4.length + (1 + (u5.length + (1 + 0))))))))))) from by omega]
    rw [drop_append_cons, drop_append_cons, drop_append_cons, drop_append_cons,
      drop_append_cons, drop_append_cons]
    exact List.drop_zero rest
  simp only [parseResume, hsplit, hscan]
  refine ⟨rfl, rfl, rfl, rfl, rfl, rfl, ?_⟩
  show joinSep ['\n'] ((u0 ++ a :: (u1 ++ b :: (u2 ++ c :: (u3 ++ d :: (u4 ++ e ::
      (u5 ++ f :: rest)))))).drop
    (0 + u0.length + 1 + u1.length + 1 + u2.length + 1 + u3.length + 1
      + u4.length + 1 + u5.length + 1
      + (((u0 ++ a :: (u1 ++ b :: (u2 ++ c :: (u3 ++ d :: (u4 ++ e ::
          (u5 ++ f :: rest)))))).drop
          (0 + u0.length + 1 + u1.length + 1 + u2.length + 1 + u3.length + 1
            + u4.length + 1 + u5.length + 1)).takeWhile isBlankLine).length)) = _
  rw [hdrop0, hdropB, drop_length_takeWhile]

/-- Witness for C1 at the concrete input `"A\n\nB\nC\nD\nE\nF\n\nbody"`
(a blank line between the first two non-blank header lines, as in the
repository's own base resume). -/
theorem parseResume_six_header_lines_witness :
    (parseResume "A\n\nB\nC\nD\nE\nF\n\nbody".data).headline = some "A".data ∧
    (parseResume "A\n\nB\nC\nD\nE\nF\n\nbody".data).name = some "B".data ∧
    (parseResume "A\n\nB\nC\nD\nE\nF\n\nbody".data).body = "body".data := by
  have h := parseResume_six_header_lines "A\n\nB\nC\nD\nE\nF\n\nbody".data
    "A".data "B".data "C".data "D".data "E".data "F".data
    [] [[]] [] [] [] [] [[], "body".data]
    (by decide) (by decide) (by decide) (by decide) (by decide) (by decide)
    (by decide) (by decide) (by decide) (by decide) (by decide) (by decide) (by decide)
  exact ⟨h.1, h.2.1, h.2.2.2.2.2.2.trans (by decide)⟩

/-- C10: for every input text with fewer than six non-blank lines, the
header scan leaves the body start at index `0` and collects every
non-blank line (trimmed) as a header field, so after skipping leading
blank lines the returned body still contains the collected header lines
themselves: each non-blank line is both a header field source and a body
line. -/
theorem parseResume_short_input (t : List Char)
    (h : ((jsSplit '\n' t).filter (fun l => !isBlankLine l)).length < 6) :
    (headerScanAux (jsSplit '\n' t) 0 []).2 = 0 ∧
    (headerScanAux (jsSplit '\n' t) 0 []).1
      = ((jsSplit '\n' t).filter (fun l => !isBlankLine l)).map jsTrim ∧
    (parseResume t).body = joinSep ['\n'] ((jsSplit '\n' t).dropWhile isBlankLine) ∧
    ∀ l ∈ jsSplit '\n' t, isBlankLine l = false → l ∈ (jsSplit '\n' t).dropWhile isBlankLine := by
  have hscan := headerScan_short (jsSplit '\n' t) 0 [] (by simpa using h)
  refine ⟨by rw [hscan], by rw [hscan]; simp, ?_, ?_⟩
  · simp only [parseResume, hscan]
    show joinSep ['\n'] ((jsSplit '\n' t).drop
      (0 + (((jsSplit '\n' t).drop 0).takeWhile isBlankLine).length)) = _
    rw [List.drop_zero, Nat.zero_add, drop_length_takeWhile]
  · intro l hl hbl
    exact mem_dropWhile_of_neg isBlankLine _ l hl hbl

/-- Witness for C10 at the concrete input `"A\nB"`. -/
theorem parseResume_short_input_witness :
    (headerScanAux (jsSplit '\n' "A\nB".data) 0 []).2 = 0 ∧
    (parseResume "A\nB".data).body
      = joinSep ['\n'] ((jsSplit '\n' "A\nB".data).dropWhile isBlankLine) := by
  have h := parseResume_short_input "A\nB".data (by decide)
  exact ⟨h.1, h.2.2.1⟩

/-! ## C4: the Date Formatter -/

theorem splitOnP_ne_nil (p : Char → Bool) : ∀ l, splitOnP p l ≠ [] := by
  intro l
  induction l with
  | nil => simp [splitOnP]
  | cons x xs ih =>
    cases h : splitOnP p xs with
    | nil => exact absurd h ih
    | cons y ys => by_cases hp : p x <;> simp [splitOnP, h, hp]

theorem splitOnP_clean (p : Char → Bool) :
    ∀ l, (∀ a ∈ l, p a = false) → splitOnP p l = [l] := by
  intro l
  induction l with
  | nil => intro _; rfl
  | cons x xs ih =>
    intro h
    have hx : p x = false := h x (List.mem_cons_self x xs)
    have hxs := ih (fun a ha => h a (List.mem_cons_of_mem x ha))
    simp [splitOnP, hxs, hx]

theorem splitOnP_sep (p : Char → Bool) (c : Char) (hc : p c = true) :
    ∀ (w t : List Char), (∀ a ∈ w, p a = false) →
      splitOnP p (w ++ c :: t) = w :: splitOnP p t := by
  intro w
  induction w with
  | nil =>
    intro t _
    cases h : splitOnP p t with
    | nil => exact absurd h (splitOnP_ne_nil p t)
    | cons y ys => simp [splitOnP, h, hc]
  | cons x w2 ih =>
    intro t hw
    have hx : p x = false := hw x (List.mem_cons_self x w2)
    have heq := ih t (fun a ha => hw a (List.mem_cons_of_mem x ha))
    simp only [List.cons_append, splitOnP, hx, List.append_eq]
    rw [heq]
    simp

theorem mem_splitOnP (p : Char → Bool) :
    ∀ l w, w ∈ splitOnP p l → ∀ a ∈ w, p a = false := by
  intro l
  induction l with
  | nil =>
    intro w hw a ha
    simp [splitOnP] at hw
    subst hw
    cases ha
  | cons x xs ih =>
    intro w hw a ha
    rcases hr : splitOnP p xs with _ | ⟨y, ys⟩
    · exact absurd hr (splitOnP_ne_nil p xs)
    · by_cases hp : p x
      · simp only [splitOnP, hr, hp, if_pos] at hw
        rcases List.mem_cons.mp hw with rfl | hw2
        · cases ha
        · exact ih w (hr ▸ hw2) a ha
      · simp only [splitOnP, hr, hp, if_neg, not_false_iff] at hw
        rcases List.mem_cons.mp hw with rfl | hw2
        · rcases List.mem_cons.mp ha with rfl | ha2
          · simpa using hp
          · exact ih y (hr ▸ List.mem_cons_self y ys) a ha2
        · exact ih w (hr ▸ List.mem_cons_of_mem y hw2) a ha

theorem dropWhile_append_singleton (p : Char → Bool) (c : Char) :
    ∀ l : List Char, List.dropWhile p (l ++ [c])
      = if List.dropWhile p l = [] then List.dropWhile p [c]
        else List.dropWhile p l ++ [c] := by
  intro l
  induction l with
  | nil => simp
  | cons x xs ih =>
    by_cases hp : p x
    · simpa [List.dropWhile_cons, hp] using ih
    · simp [List.dropWhile_cons, hp]

theorem jsTrim_append_ws (l : List Char) (c : Char) (hc : isWsChar c = true) :
    jsTrim (l ++ [c]) = jsTrim l := by
  unfold jsTrim
  rw [dropWhile_append_singleton]
  by_cases h : List.dropWhile isWsChar l = []
  · simp [h, List.dropWhile_cons, hc]
  · rw [if_neg h, List.reverse_append]
    simp [List.dropWhile_cons, hc]

theorem jsTrim_cons_ws (l : List Char) (c : Char) (hc : isWsChar c = true) :
    jsTrim (c :: l) = jsTrim l := by
  unfold jsTrim
  simp [List.dropWhile_cons, hc]

/-- C4: `formatDate` is idempotent on already-formatted strings — for
every pair of trimmed, dash-free parts that do not match `MM/YYYY`
(covering every string of the form `"Jan 2020 – Mar 2022"`), the joined
string comes back unchanged — and `formatDate "06/2022 - Current"` is
`"Jun 2022 – Current"`: a dash-separated part matching `MM/YYYY` is
reformatted to abbreviated-month year, non-matching parts pass through,
and parts are rejoined with `" – "` (en-dash with spaces). -/
theorem formatDate_spec :
    (∀ p q : List Char,
      (∀ a ∈ p, isDashChar a = false) → (∀ a ∈ q, isDashChar a = false) →
      jsTrim p = p → jsTrim q = q →
      matchMMYYYY p = false → matchMMYYYY q = false →
      formatDate (p ++ " – ".data ++ q) = p ++ " – ".data ++ q) ∧
    formatDate "06/2022 - Current".data = "Jun 2022 – Current".data := by
  constructor
  · intro p q hp hq htp htq hmp hmq
    have hdash : (p ++ " – ".data ++ q).any (fun c => c == '–') = true := by
      have hm : '–' ∈ " – ".data := by decide
      refine List.any_eq_true.mpr ⟨'–', ?_, ?_⟩
      · exact List.mem_append_left q (List.mem_append_right p hm)
      · decide
    have hassoc : p ++ " – ".data ++ q = (p ++ [' ']) ++ '–' :: (' ' :: q) := by
      simp [String.data]
    have hw : ∀ a ∈ p ++ [' '], isDashChar a = false := by
      intro a ha
      rcases List.mem_append.mp ha with h1 | h1
      · exact hp a h1
      · simp only [List.mem_singleton] at h1; subst h1; decide
    have ht : ∀ a ∈ ' ' :: q, isDashChar a = false := by
      intro a ha
      rcases List.mem_cons.mp ha with rfl | h1
      · decide
      · exact hq a h1
    have hsplit2 : splitOnP isDashChar (p ++ " – ".data ++ q) = [p ++ [' '], ' ' :: q] := by
      rw [hassoc, splitOnP_sep isDashChar '–' (by decide) _ _ hw,
        splitOnP_clean isDashChar _ ht]
    have htrim1 : jsTrim (p ++ [' ']) = p := by
      rw [jsTrim_append_ws p ' ' (by decide), htp]
    have htrim2 : jsTrim (' ' :: q) = q := by
      rw [jsTrim_cons_ws q ' ' (by decide), htq]
    unfold formatDate
    rw [if_pos (Bool.or_eq_true _ _ ▸ Or.inl hdash : _ = true)]
    rw [hsplit2]
    simp [htrim1, htrim2, hmp, hmq, joinSep]
  · decide

/-- Witness for C4: idempotence applied at `"Jan 2020 – Mar 2022"`. -/
theorem formatDate_spec_witness :
    formatDate ("Jan 2020".data ++ " – ".data ++ "Mar 2022".data)
      = "Jan 2020".data ++ " – ".data ++ "Mar 2022".data :=
  formatDate_spec.1 "Jan 2020".data "Mar 2022".data
    (by decide) (by decide) (by decide) (by decide) (by decide) (by decide)

/-! ## C2: the Line Wrapper -/

/-- The non-empty words of a line (its `split(' ')` pieces with the empty
pieces produced by repeated spaces dropped). -/
def lineWords (l : List Char) : List (List Char) :=
  (jsSplit ' ' l).filter (fun w => w != [])

theorem joinSep_append_one (c : Char) (w : List Char) :
    ∀ cw : List (List Char), cw ≠ [] →
      joinSep [c] (cw ++ [w]) = joinSep [c] cw ++ c :: w := by
  intro cw
  induction cw with
  | nil => intro h; exact absurd rfl h
  | cons v rest ih =>
    intro _
    cases rest with
    | nil => simp [joinSep]
    | cons v2 rest2 =>
      have heq := ih (by simp)
      rw [List.cons_append] at heq
      simp only [List.cons_append, joinSep, List.append_eq]
      rw [heq]
      simp [joinSep]

theorem splitOnP_joinSep (p : Char → Bool) (c : Char) (hc : p c = true) :
    ∀ cw : List (List Char), cw ≠ [] →
      (∀ w ∈ cw, ∀ a ∈ w, p a = false) →
      splitOnP p (joinSep [c] cw) = cw := by
  intro cw
  induction cw with
  | nil => intro h; exact absurd rfl h
  | cons v rest ih =>
    intro _ hfree
    cases rest with
    | nil =>
      show splitOnP p v = [v]
      exact splitOnP_clean p v (hfree v (List.mem_cons_self v []))
    | cons v2 rest2 =>
      have hjoin : joinSep [c] (v :: v2 :: rest2) = v ++ c :: joinSep [c] (v2 :: rest2) := by
        simp [joinSep]
      rw [hjoin, splitOnP_sep p c hc v _ (hfree v (List.mem_cons_self v _)),
        ih (by simp) (fun w hw a ha => hfree w (List.mem_cons_of_mem v hw) a ha)]

theorem wrapAux_sound (font : List Char → Int → Int) (size maxWidth : Int)
    (W : List (List Char)) :
    ∀ (ws lines : List (List Char)) (current : List Char),
      (∀ w ∈ ws, w ∈ W) →
      (∀ l ∈ lines, font l size ≤ maxWidth ∨ l ∈ W) →
      (current = [] ∨ font current size ≤ maxWidth ∨ current ∈ W) →
      ∀ l ∈ wrapAux font size maxWidth ws lines current,
        font l size ≤ maxWidth ∨ l ∈ W := by
  intro ws
  induction ws with
  | nil =>
    intro lines current _ hlines hcur l hl
    simp only [wrapAux] at hl
    by_cases hc : current = []
    · rw [if_pos hc] at hl; exact hlines l hl
    · rw [if_neg hc] at hl
      rcases List.mem_append.mp hl with h1 | h1
      · exact hlines l h1
      · simp only [List.mem_singleton] at h1; subst h1
        rcases hcur with h | h
        · exact absurd h hc
        · exact h
  | cons w ws ih =>
    intro lines current hws hlines hcur l hl
    have hwW : w ∈ W := hws w (List.mem_cons_self w ws)
    have hwsW : ∀ v ∈ ws, v ∈ W := fun v hv => hws v (List.mem_cons_of_mem w hv)
    simp only [wrapAux] at hl
    by_cases hcond : maxWidth < font (if current = [] then w else current ++ ' ' :: w) size
        ∧ current ≠ []
    · rw [if_pos hcond] at hl
      refine ih (lines ++ [current]) w hwsW ?_ (Or.inr (Or.inr hwW)) l hl
      intro l2 hl2
      rcases List.mem_append.mp hl2 with h1 | h1
      · exact hlines l2 h1
      · simp only [List.mem_singleton] at h1; subst h1
        rcases hcur with h | h
        · exact absurd h hcond.2
        · exact h
    · rw [if_neg hcond] at hl
      refine ih lines _ hwsW hlines ?_ l hl
      by_cases hfit : font (if current = [] then w else current ++ ' ' :: w) size ≤ maxWidth
      · exact Or.inr (Or.inl hfit)
      · have hcur0 : current = [] := by
          by_contra hne
          exact hcond ⟨lt_of_not_le hfit, hne⟩
        rw [if_pos hcur0]
        exact Or.inr (Or.inr hwW)

theorem wrapAux_words (font : List Char → Int → Int) (size maxWidth : Int) :
    ∀ (ws lines : List (List Char)) (current : List Char) (cw : List (List Char)),
      (∀ w ∈ ws, ∀ a ∈ w, (a == ' ') = false) →
      (∀ w ∈ cw, ∀ a ∈ w, (a == ' ') = false) →
      current = joinSep [' '] cw →
      (current = [] → cw = []) →
      ((wrapAux font size maxWidth ws lines current).map lineWords).join
        = (lines.map lineWords).join ++ cw.filter (fun w => w != [])
          ++ ws.filter (fun w => w != []) := by
  intro ws
  induction ws with
  | nil =>
    intro lines current cw _ hcwfree hjoin hemp
    simp only [wrapAux]
    by_cases hc : current = []
    · rw [if_pos hc]
      rw [hemp hc]
      simp
    · rw [if_neg hc]
      have hcwne : cw ≠ [] := by
        intro h; subst h; exact hc (by simpa [joinSep] using hjoin)
      have hlw : lineWords current = cw.filter (fun w => w != []) := by
        unfold lineWords jsSplit
        rw [hjoin, splitOnP_joinSep (· == ' ') ' ' (by decide) cw hcwne hcwfree]
      simp [hlw]
  | cons w ws ih =>
    intro lines current cw hwsfree hcwfree hjoin hemp
    have hwfree : ∀ a ∈ w, (a == ' ') = false :=
      hwsfree w (List.mem_cons_self w ws)
    have hwsfree2 : ∀ v ∈ ws, ∀ a ∈ v, (a == ' ') = false :=
      fun v hv => hwsfree v (List.mem_cons_of_mem w hv)
    simp only [wrapAux]
    by_cases hcond : maxWidth < font (if current = [] then w else current ++ ' ' :: w) size
        ∧ current ≠ []
    · rw [if_pos hcond]
      have hcwne : cw ≠ [] := by
        intro h; subst h; exact hcond.2 (by simpa [joinSep] using hjoin)
      have hlw : lineWords current = cw.filter (fun v => v != []) := by
        unfold lineWords jsSplit
        rw [hjoin, splitOnP_joinSep (· == ' ') ' ' (by decide) cw hcwne hcwfree]
      by_cases hw0 : w = []
      · subst hw0
        rw [ih (lines ++ [current]) [] [] hwsfree2 (by simp) rfl (fun _ => rfl)]
        simp [hlw, List.filter_cons]
      · rw [ih (lines ++ [current]) w [w] hwsfree2
          (by intro v hv; simp only [List.mem_singleton] at hv; subst hv; exact hwfree)
          (by simp [joinSep]) (fun h => absurd h hw0)]
        simp [hlw, List.filter_cons, hw0]
    · rw [if_neg hcond]
      by_cases hc : current = []
      · have hcw0 : cw = [] := hemp hc
        subst hcw0
        rw [if_pos hc] at *
        by_cases hw0 : w = []
        · subst hw0
          rw [ih lines [] [] hwsfree2 (by simp) rfl (fun _ => rfl)]
          simp [List.filter_cons]
        · rw [ih lines w [w] hwsfree2
            (by intro v hv; simp only [List.mem_singleton] at hv; subst hv; exact hwfree)
            (by simp [joinSep]) (fun h => absurd h hw0)]
          simp [List.filter_cons, hw0]
      · have hcwne : cw ≠ [] := by
          intro h; subst h; exact hc (by simpa [joinSep] using hjoin)
        rw [show (if current = [] then w else current ++ ' ' :: w) = current ++ ' ' :: w from
          by rw [if_neg hc]]
        have hjoin2 : current ++ ' ' :: w = joinSep [' '] (cw ++ [w]) := by
          rw [joinSep_append_one ' ' w cw hcwne, ← hjoin]
        have hfree2 : ∀ v ∈ cw ++ [w], ∀ a ∈ v, (a == ' ') = false := by
          intro v hv
          rcases List.mem_append.mp hv with h1 | h1
          · exact hcwfree v h1
          · simp only [List.mem_singleton] at h1; subst h1; exact hwfree
        rw [ih lines (current ++ ' ' :: w) (cw ++ [w]) hwsfree2 hfree2 hjoin2
          (by intro h; exact absurd h (by simp))]
        by_cases hw0 : w = [] <;> simp [List.filter_append, List.filter_cons, hw0]

/-- C2: for every input string, font, size and `maxWidth`, `wrapText`
never emits a line whose measured width exceeds `maxWidth` except when
that line is a single word of the input (emitted unsplit as its own
line), and the non-empty words of the emitted lines, in order, are
exactly the non-empty words of the input (so the space-joined
concatenation reproduces the input modulo whitespace collapsing). -/
theorem wrapText_spec (text : List Char) (font : List Char → Int → Int)
    (size maxWidth : Int) :
    (∀ l ∈ wrapText text font size maxWidth,
      font l size ≤ maxWidth ∨ l ∈ jsSplit ' ' text) ∧
    ((wrapText text font size maxWidth).map lineWords).join = lineWords text := by
  constructor
  · intro l hl
    exact wrapAux_sound font size maxWidth (jsSplit ' ' text) (jsSplit ' ' text) [] []
      (fun w hw => hw) (by simp) (Or.inl rfl) l hl
  · have h := wrapAux_words font size maxWidth (jsSplit ' ' text) [] [] []
      (fun w hw => mem_splitOnP (· == ' ') text w hw) (by simp) rfl (fun _ => rfl)
    simpa [wrapText, lineWords] using h

/-- Witness for C2 at `"ab cd"` with the demo font, size 11, width 12. -/
theorem wrapText_spec_witness :
    (demoFont "ab".data 110 ≤ 120 ∨ "ab".data ∈ jsSplit ' ' "ab cd".data) ∧
    ((wrapText "ab cd".data demoFont 110 120).map lineWords).join
      = lineWords "ab cd".data := by
  have h := wrapText_spec "ab cd".data demoFont 110 120
  exact ⟨h.1 "ab".data (by decide), h.2⟩

/-! ## C6: the Inline Emphasis Renderer -/

theorem matchBoldAt_append :
    ∀ l m tail, matchBoldAt l = some (m, tail) → m ++ tail = l := by
  intro l m tail h
  rw [matchBoldAt.eq_def] at h
  split at h
  next rest =>
    dsimp only at h
    split at h
    next => exact absurd h (by simp)
    next content c cs heqt heqd =>
      injection h with h1
      injection h1 with h2 h3
      subst h2; subst h3
      have hrest : rest = rest.takeWhile (fun c => c != '*') ++ '*' :: '*' :: cs := by
        conv_lhs => rw [← List.takeWhile_append_dropWhile (fun c => c != '*') rest]
        rw [heqt]
      conv_rhs => rw [hrest]
      simp
    next => exact absurd h (by simp)
  next => exact absurd h (by simp)

theorem splitBold_join :
    ∀ (fuel : Nat) (l gap : List Char), (splitBoldAux fuel l gap).join = gap ++ l := by
  intro fuel
  induction fuel with
  | zero => intro l gap; simp [splitBoldAux]
  | succ fuel ih =>
    intro l gap
    cases hm : matchBoldAt l with
    | some pr =>
      obtain ⟨m, tail⟩ := pr
      have hml := matchBoldAt_append l m tail hm
      have hstep : splitBoldAux (fuel + 1) l gap = gap :: m :: splitBoldAux fuel tail [] := by
        simp [splitBoldAux, hm]
      rw [hstep]
      simp only [List.join_cons, ih tail []]
      rw [List.nil_append, ← List.append_assoc, List.append_assoc gap m tail, hml]
    | none =>
      cases l with
      | nil =>
        have hstep : splitBoldAux (fuel + 1) [] gap = [gap] := by
          simp [splitBoldAux, hm]
        rw [hstep]; simp
      | cons ch rest =>
        have hstep : splitBoldAux (fuel + 1) (ch :: rest) gap
            = splitBoldAux fuel rest (gap ++ [ch]) := by
          simp [splitBoldAux, hm]
        rw [hstep, ih rest (gap ++ [ch])]
        simp

theorem jsSplitBoldParts_join (l : List Char) : (jsSplitBoldParts l).join = l :=
  splitBold_join l.length l []

/-- What one part contributes to the drawn text: its inner content for a
part treated as bold, itself otherwise. -/
def contentOf (p : List Char) : List Char :=
  if isBoldPart p then sliceInner p else p

theorem dtwbStep_eq (fW fbW : List Char → Int → Int) (size : Int)
    (acc : List Run × Int) (p : List Char) :
    dtwbStep fW fbW size acc p
      = (acc.1 ++ [⟨acc.2, contentOf p, isBoldPart p⟩],
         acc.2 + runWidth fW fbW size ⟨acc.2, contentOf p, isBoldPart p⟩) := by
  by_cases hb : isBoldPart p <;> simp [dtwbStep, contentOf, runWidth, hb]

theorem dtwb_contents (fW fbW : List Char → Int → Int) (size : Int) :
    ∀ (parts : List (List Char)) (acc : List Run × Int),
      ((parts.foldl (dtwbStep fW fbW size) acc).1).map Run.content
        = acc.1.map Run.content ++ parts.map contentOf := by
  intro parts
  induction parts with
  | nil => intro acc; simp
  | cons p parts ih =>
    intro acc
    rw [List.foldl_cons, ih, dtwbStep_eq]
    simp

theorem append_one_decomp {α : Type} (pre post runs : List α) (r x : α)
    (hEq : pre ++ r :: post = runs ++ [x]) :
    (pre = runs ∧ r = x ∧ post = []) ∨
      ∃ post2, post = post2 ++ [x] ∧ runs = pre ++ r :: post2 := by
  rcases List.eq_nil_or_concat post with rfl | ⟨post2, y, rfl⟩
  · left
    have h2 := List.append_inj' hEq (by simp)
    refine ⟨h2.1, ?_, rfl⟩
    have := h2.2
    simpa using this
  · right
    have hEq2 : (pre ++ r :: post2) ++ [y] = runs ++ [x] := by
      simpa using hEq
    have h2 := List.append_inj' hEq2 (by simp)
    have hy : y = x := by simpa using h2.2
    refine ⟨post2, ?_, h2.1.symm⟩
    rw [hy, List.concat_eq_append]

theorem dtwb_offsets_aux (fW fbW : List Char → Int → Int) (size x : Int) :
    ∀ (parts : List (List Char)) (runs0 : List Run) (off0 : Int),
      (∀ (pre : List Run) (r : Run) (post : List Run),
        runs0 = pre ++ r :: post → r.x = x + ((pre.map (runWidth fW fbW size)).sum)) →
      off0 = x + ((runs0.map (runWidth fW fbW size)).sum) →
      ∀ (pre : List Run) (r : Run) (post : List Run),
        (parts.foldl (dtwbStep fW fbW size) (runs0, off0)).1 = pre ++ r :: post →
        r.x = x + ((pre.map (runWidth fW fbW size)).sum) := by
  intro parts
  induction parts with
  | nil =>
    intro runs0 off0 h1 _ pre r post hEq
    simp only [List.foldl_nil] at hEq
    exact h1 pre r post hEq
  | cons p parts ih =>
    intro runs0 off0 h1 h2 pre r post hEq
    rw [List.foldl_cons, dtwbStep_eq] at hEq
    set newR : Run := ⟨off0, contentOf p, isBoldPart p⟩ with hnewR
    refine ih (runs0 ++ [newR]) (off0 + runWidth fW fbW size newR) ?_ ?_ pre r post hEq
    · intro pre2 r2 post2 hdec
      rcases append_one_decomp pre2 post2 runs0 r2 newR hdec.symm with ⟨hp, hr, _⟩ | ⟨post3, _, hruns⟩
      · subst hp; subst hr
        show newR.x = _
        rw [hnewR, h2]
      · exact h1 pre2 r2 post3 hruns
    · rw [h2]
      simp [List.sum_append]
      ring

theorem removeStarPairs_cons_ne (c : Char) (l : List Char) (hc : c ≠ '*') :
    removeStarPairs (c :: l) = c :: removeStarPairs l := by
  cases l with
  | nil => simp [removeStarPairs]
  | cons c2 rest =>
    have : ¬ (c = '*' ∧ c2 = '*') := fun h => hc h.1
    simp [removeStarPairs, this]

theorem removeStarPairs_stars (l : List Char) :
    removeStarPairs ('*' :: '*' :: l) = removeStarPairs l := by
  simp [removeStarPairs]

theorem removeStarPairs_append_starfree :
    ∀ (p t : List Char), (∀ a ∈ p, a ≠ '*') →
      removeStarPairs (p ++ t) = p ++ removeStarPairs t := by
  intro p
  induction p with
  | nil => intro t _; rfl
  | cons c p2 ih =>
    intro t hfree
    have hc : c ≠ '*' := hfree c (List.mem_cons_self c p2)
    rw [List.cons_append, removeStarPairs_cons_ne c _ hc,
      ih t (fun a ha => hfree a (List.mem_cons_of_mem c ha))]
    rfl

theorem matchBold_self (p : List Char) (h : matchBoldAt p = some (p, [])) :
    ∃ content, content ≠ [] ∧ (∀ a ∈ content, a ≠ '*') ∧
      p = '*' :: '*' :: content ++ ['*', '*'] := by
  rw [matchBoldAt.eq_def] at h
  split at h
  next rest =>
    dsimp only at h
    split at h
    next => exact absurd h (by simp)
    next content c cs heqt heqd =>
      injection h with h1
      injection h1 with h2 h3
      subst h3
      refine ⟨rest.takeWhile (fun c => c != '*'), ?_, ?_, h2.symm⟩
      · intro hnil
        exact heqd hnil
      · intro a ha
        have := List.mem_takeWhile_imp ha
        simpa using this
    next => exact absurd h (by simp)
  next => exact absurd h (by simp)

theorem starfree_not_bold (p : List Char) (hfree : ∀ a ∈ p, a ≠ '*') :
    isBoldPart p = false := by
  cases hb : isBoldPart p
  · rfl
  · exfalso
    unfold isBoldPart at hb
    have hand := (Bool.and_eq_true _ _).mp hb
    have htake : p.take 2 = "**".data := beq_iff_eq.mp hand.1
    have hmem : '*' ∈ p := by
      refine List.mem_of_mem_take (n := 2) ?_
      rw [htake]; decide
    exact hfree '*' hmem rfl

theorem contentOf_matched (content : List Char) :
    contentOf ('*' :: '*' :: content ++ ['*', '*']) = content := by
  have hbold : isBoldPart ('*' :: '*' :: content ++ ['*', '*']) = true := by
    unfold isBoldPart
    refine (Bool.and_eq_true _ _).mpr ⟨?_, ?_⟩
    · simp [String.data]
    · refine beq_iff_eq.mpr ?_
      have hlen : ('*' :: '*' :: content ++ ['*', '*']).length - 2 = content.length + 2 := by
        simp
      rw [hlen]
      show (('*' :: '*' :: content) ++ ['*', '*']).drop (content.length + 2) = _
      have : ('*' :: '*' :: content).length = content.length + 2 := by simp
      rw [← this, List.drop_left]
  unfold contentOf sliceInner
  rw [hbold]
  simp only [if_pos rfl]
  have hlen : ('*' :: '*' :: content ++ ['*', '*']).length - 2 = content.length + 2 := by simp
  rw [hlen]
  show ((('*' :: '*' :: content) ++ ['*', '*']).take (content.length + 2)).drop 2 = content
  have hlen2 : ('*' :: '*' :: content).length = content.length + 2 := by simp
  rw [← hlen2, List.take_left]
  simp

theorem contentOf_join :
    ∀ parts : List (List Char),
      (∀ p ∈ parts, (∀ a ∈ p, a ≠ '*') ∨ matchBoldAt p = some (p, [])) →
      (parts.map contentOf).join = removeStarPairs parts.join := by
  intro parts
  induction parts with
  | nil => intro _; rfl
  | cons p parts ih =>
    intro hp
    have hrec := ih (fun q hq => hp q (List.mem_cons_of_mem p hq))
    rcases hp p (List.mem_cons_self p parts) with hfree | hmatch
    · have hcontent : contentOf p = p := by
        unfold contentOf
        rw [starfree_not_bold p hfree]
        simp
      simp only [List.map_cons, List.join_cons, hcontent, hrec]
      rw [removeStarPairs_append_starfree p _ hfree]
    · rcases matchBold_self p hmatch with ⟨content, hne, hfree, hstruct⟩
      subst hstruct
      simp only [List.map_cons, List.join_cons, contentOf_matched content, hrec]
      have hshape : ('*' :: '*' :: content ++ ['*', '*']) ++ parts.join
          = '*' :: '*' :: (content ++ ('*' :: '*' :: parts.join)) := by
        simp
      rw [hshape, removeStarPairs_stars,
        removeStarPairs_append_starfree content _ hfree, removeStarPairs_stars]

theorem matchBoldAt_shape :
    ∀ l m tail, matchBoldAt l = some (m, tail) →
      ∃ c, c ≠ [] ∧ (∀ x ∈ c, x ≠ '*') ∧ m = '*' :: '*' :: c ++ ['*', '*'] := by
  intro l m tail h
  rw [matchBoldAt.eq_def] at h
  split at h
  next rest =>
    dsimp only at h
    split at h
    next => exact absurd h (by simp)
    next content c cs heqt heqd =>
      injection h with h1
      injection h1 with h2 h3
      refine ⟨rest.takeWhile (fun c => c != '*'), fun hnil => heqd hnil, ?_, h2.symm⟩
      intro x hx
      have := List.mem_takeWhile_imp hx
      simpa using this
    next => exact absurd h (by simp)
  next => exact absurd h (by simp)

theorem removeStarPairs_cons₂ (c1 c2 : Char) (rest : List Char)
    (h : ¬ (c1 = '*' ∧ c2 = '*')) :
    removeStarPairs (c1 :: c2 :: rest) = c1 :: removeStarPairs (c2 :: rest) := by
  simp [removeStarPairs, h]

theorem noPairs_not_bold (p : List Char) (h : hasStarPair p = false) :
    isBoldPart p = false := by
  cases p with
  | nil => rfl
  | cons x q =>
    cases q with
    | nil => simp [isBoldPart, String.data]
    | cons y r =>
      have hxy : ¬ (x = '*' ∧ y = '*') := by
        intro hand
        rcases hand with ⟨h1, h2⟩
        subst h1; subst h2
        simp [hasStarPair] at h
      have htake : ((x :: y :: r).take 2 == "**".data) = false := by
        refine beq_eq_false_iff_ne.mpr ?_
        show [x, y] ≠ ['*', '*']
        intro heq
        injection heq with e1 e2
        injection e2 with e2 _
        exact hxy ⟨e1, e2⟩
      unfold isBoldPart
      rw [htake, Bool.false_and]

theorem rsp_noPairs_id : ∀ g : List Char, hasStarPair g = false →
    removeStarPairs g = g := by
  intro g
  induction g with
  | nil => intro _; rfl
  | cons x g2 ih =>
    intro hg
    cases g2 with
    | nil => rfl
    | cons y g3 =>
      have hg2 : ((x == '*' && y == '*') || hasStarPair (y :: g3)) = false := hg
      rw [Bool.or_eq_false_iff] at hg2
      obtain ⟨hxy, hrest⟩ := hg2
      have hnand : ¬ (x = '*' ∧ y = '*') := by
        intro hand
        rcases hand with ⟨h1, h2⟩
        subst h1; subst h2
        simp at hxy
      rw [removeStarPairs_cons₂ x y g3 hnand, ih hrest]

theorem rsp_noPairs_stars :
    ∀ (g t : List Char), hasStarPair g = false → t.head? ≠ some '*' →
      removeStarPairs (g ++ '*' :: '*' :: t) = g ++ removeStarPairs t := by
  intro g
  induction g with
  | nil => intro t _ _; exact removeStarPairs_stars t
  | cons x g2 ih =>
    intro t hg ht
    cases g2 with
    | nil =>
      by_cases hx : x = '*'
      · subst hx
        show removeStarPairs ('*' :: '*' :: ('*' :: t)) = '*' :: removeStarPairs t
        rw [removeStarPairs_stars]
        cases t with
        | nil => rfl
        | cons c t2 =>
          have hc : c ≠ '*' := by
            intro hcc
            subst hcc
            exact ht rfl
          rw [removeStarPairs_cons₂ '*' c t2 (fun hand => hc hand.2)]
      · show removeStarPairs (x :: '*' :: '*' :: t) = x :: removeStarPairs t
        rw [removeStarPairs_cons₂ x '*' _ (fun hand => hx hand.1), removeStarPairs_stars]
    | cons y g3 =>
      have hg2 : ((x == '*' && y == '*') || hasStarPair (y :: g3)) = false := hg
      rw [Bool.or_eq_false_iff] at hg2
      obtain ⟨hxy, hrest⟩ := hg2
      have hnand : ¬ (x = '*' ∧ y = '*') := by
        intro hand
        rcases hand with ⟨h1, h2⟩
        subst h1; subst h2
        simp at hxy
      show removeStarPairs (x :: ((y :: g3) ++ '*' :: '*' :: t))
        = x :: ((y :: g3) ++ removeStarPairs t)
      rw [show ((y :: g3) ++ '*' :: '*' :: t) = y :: (g3 ++ '*' :: '*' :: t) from rfl,
        removeStarPairs_cons₂ x y _ hnand,
        show (y :: (g3 ++ '*' :: '*' :: t)) = ((y :: g3) ++ '*' :: '*' :: t) from rfl,
        ih t hrest ht]

theorem rsp_match_append (c : List Char) (hcfree : ∀ x ∈ c, x ≠ '*') (t : List Char) :
    removeStarPairs (('*' :: '*' :: c ++ ['*', '*']) ++ t) = c ++ removeStarPairs t := by
  have hshape : ('*' :: '*' :: c ++ ['*', '*']) ++ t = '*' :: '*' :: (c ++ '*' :: '*' :: t) := by
    simp
  rw [hshape, removeStarPairs_stars, removeStarPairs_append_starfree c _ hcfree,
    removeStarPairs_stars]

theorem contentOf_single (p : List Char)
    (h : hasStarPair p = false ∨ matchBoldAt p = some (p, [])) :
    contentOf p = removeStarPairs p := by
  rcases h with hnp | hm
  · rw [rsp_noPairs_id p hnp]
    unfold contentOf
    rw [noPairs_not_bold p hnp]
    simp
  · rcases matchBold_self p hm with ⟨c, hne, hfree, hstruct⟩
    subst hstruct
    rw [contentOf_matched]
    have h2 : removeStarPairs ('*' :: '*' :: c ++ ['*', '*']) = c := by
      have h3 := rsp_match_append c hfree []
      simpa [show removeStarPairs ([] : List Char) = [] from rfl] using h3
    exact h2.symm

theorem splitBoldAux_contentOf :
    ∀ (fuel : Nat) (l gap : List Char),
      (∀ p ∈ splitBoldAux fuel l gap,
        hasStarPair p = false ∨ matchBoldAt p = some (p, [])) →
      ((splitBoldAux fuel l gap).map contentOf).join = removeStarPairs (gap ++ l) := by
  intro fuel
  induction fuel with
  | zero =>
    intro l gap hp
    have h1 := hp (gap ++ l) (by simp [splitBoldAux])
    show ([gap ++ l].map contentOf).join = removeStarPairs (gap ++ l)
    simp [contentOf_single (gap ++ l) h1]
  | succ fuel ih =>
    intro l gap hp
    cases hm : matchBoldAt l with
    | some pr =>
      obtain ⟨m, tail⟩ := pr
      have hstep : splitBoldAux (fuel + 1) l gap = gap :: m :: splitBoldAux fuel tail [] := by
        simp [splitBoldAux, hm]
      rw [hstep] at hp ⊢
      have hgap := hp gap (by simp)
      rcases matchBoldAt_shape l m tail hm with ⟨c, hcne, hcfree, hmstruct⟩
      have hltail : m ++ tail = l := matchBoldAt_append l m tail hm
      have hrec := ih tail [] (fun q hq => hp q (by simp [hq]))
      rw [List.nil_append] at hrec
      have hcm : contentOf m = c := by rw [hmstruct]; exact contentOf_matched c
      have hchead : (c ++ '*' :: '*' :: tail).head? ≠ some '*' := by
        cases c with
        | nil => exact absurd rfl hcne
        | cons c0 c2 =>
          intro hcontra
          injection hcontra with hc0
          exact hcfree c0 (List.mem_cons_self c0 c2) hc0
      have hrsp : removeStarPairs (gap ++ l) = contentOf gap ++ (c ++ removeStarPairs tail) := by
        rw [← hltail, hmstruct]
        rcases hgap with hnp | hmg
        · have hshape : gap ++ (('*' :: '*' :: c ++ ['*', '*']) ++ tail)
              = gap ++ '*' :: '*' :: (c ++ '*' :: '*' :: tail) := by simp
          rw [hshape, rsp_noPairs_stars gap _ hnp hchead,
            removeStarPairs_append_starfree c _ hcfree, removeStarPairs_stars]
          have hcog : contentOf gap = gap := by
            unfold contentOf
            rw [noPairs_not_bold gap hnp]
            simp
          rw [hcog]
        · rcases matchBold_self gap hmg with ⟨g0, hg0ne, hg0free, hgstruct⟩
          subst hgstruct
          have hcog : contentOf ('*' :: '*' :: g0 ++ ['*', '*']) = g0 := contentOf_matched g0
          rw [hcog]
          rw [rsp_match_append g0 hg0free, rsp_match_append c hcfree]
      simp only [List.map_cons, List.join_cons, hrsp, hcm, hrec]
    | none =>
      cases l with
      | nil =>
        have hstep : splitBoldAux (fuel + 1) [] gap = [gap] := by
          simp [splitBoldAux, hm]
        rw [hstep] at hp ⊢
        have h1 := hp gap (by simp)
        show ([gap].map contentOf).join = removeStarPairs (gap ++ [])
        rw [List.append_nil]
        simp [contentOf_single gap h1]
      | cons ch restl =>
        have hstep : splitBoldAux (fuel + 1) (ch :: restl) gap
            = splitBoldAux fuel restl (gap ++ [ch]) := by
          simp [splitBoldAux, hm]
        rw [hstep] at hp ⊢
        rw [ih restl (gap ++ [ch]) hp]
        congr 1
        simp

/-- C6 (amended): for every text line, `drawTextWithBold` draws runs
left-to-right with each run's x-offset equal to the starting `x` plus
the sum of the measured widths of all prior runs at their faces and the
current size; and for every line in which each split part either
contains no `**` occurrence or is exactly a matched `**…**` span — in
particular every line whose `**` occurrences all belong to matched bold
spans — the concatenation of the drawn run contents equals the line
with all `**` markers removed.  (Lines with stray `**` markers outside
matched spans are drawn verbatim, markers included — see the
counterexample.) -/
theorem drawTextWithBold_amended (fW fbW : List Char → Int → Int)
    (text : List Char) (x size : Int) :
    (∀ (pre : List Run) (r : Run) (post : List Run),
      drawTextWithBold fW fbW text x size = pre ++ r :: post →
      r.x = x + ((pre.map (runWidth fW fbW size)).sum)) ∧
    ((∀ p ∈ jsSplitBoldParts text,
        hasStarPair p = false ∨ matchBoldAt p = some (p, [])) →
      ((drawTextWithBold fW fbW text x size).map Run.content).join
        = removeStarPairs text) := by
  constructor
  · intro pre r post hEq
    refine dtwb_offsets_aux fW fbW size x (jsSplitBoldParts text) [] x ?_ (by simp)
      pre r post hEq
    intro pre2 r2 post2 hdec
    exact absurd hdec.symm (by simp)
  · intro hparts
    unfold drawTextWithBold
    rw [dtwb_contents fW fbW size (jsSplitBoldParts text) ([], x)]
    rw [show (([], x) : List Run × Int).1.map Run.content = [] from rfl, List.nil_append]
    have h := splitBoldAux_contentOf text.length text [] hparts
    rw [List.nil_append] at h
    exact h

/-- Counterexample for C6 as stated: at the line `"a**"` (a stray,
unmatched `**`), the single drawn run keeps the markers, so the drawn
content differs from the line with all `**` markers removed. -/
theorem drawTextWithBold_counterexample :
    ((drawTextWithBold demoFont demoFont "a**".data 0 110).map Run.content).join
      = "a**".data ∧
    removeStarPairs "a**".data = "a".data ∧
    ((drawTextWithBold demoFont demoFont "a**".data 0 110).map Run.content).join
      ≠ removeStarPairs "a**".data := by
  refine ⟨by decide, by decide, by decide⟩

/-- Witness for C6 at `"a **b** c"` with the demo font: the second run
(the bold `"b"`) sits at the measured width of `"a "`, and the drawn
contents concatenate to the marker-stripped line. -/
theorem drawTextWithBold_amended_witness :
    (Run.mk 110 "b".data true).x
      = 0 + (([Run.mk 0 "a ".data false].map (runWidth demoFont demoFont 110)).sum) ∧
    ((drawTextWithBold demoFont demoFont "a **b** c".data 0 110).map Run.content).join
      = removeStarPairs "a **b** c".data := by
  have h := drawTextWithBold_amended demoFont demoFont "a **b** c".data 0 110
  exact ⟨h.1 [Run.mk 0 "a ".data false] (Run.mk 110 "b".data true)
    [Run.mk 165 " c".data false] (by decide), h.2 (by decide)⟩

/-! ## C5: the skills-category glyph -/

/-- C5 (code bug): the body classifier routes `"· Frontend"` to the
skills-category branch, but the branch stores `line.trim()` — despite the
source comment "Remove the `·` symbol", the glyph is *not* stripped — so
the renderer draws `"· Frontend"`, not `"Frontend"`. -/
theorem skillsCategory_glyph_not_stripped :
    classifyBodyLine "· Frontend".data = ClassifiedLine.skillsCategory "· Frontend".data ∧
    (processBodyLine demoFont demoFont initState "· Frontend".data).ops
      = [Op.text 0 (MARGIN_LEFT + 100) (PAGE_HEIGHT - MARGIN_TOP) "· Frontend".data
          (BODY_SIZE + 10) true] ∧
    classifyBodyLine "· Frontend".data ≠ ClassifiedLine.skillsCategory "Frontend".data := by
  refine ⟨by decide, by decide, by decide⟩

/-! ## C7 / C8: the HTTP boundary -/

/-- C7: for every request missing any of the required fields
`job_description`, `company`, or `role`, the endpoint returns status 400
with the fixed JSON error body, and neither the model call nor PDF
generation is attempted. -/
theorem POST_missing_required_fields
    (job_description company role openaiKey completion : Option (List Char))
    (fW fbW : List Char → Int → Int)
    (h : job_description = none ∨ company = none ∨ role = none) :
    (POST job_description company role openaiKey completion fW fbW).status = 400 ∧
    (POST job_description company role openaiKey completion fW fbW).errorBody
      = some missingFieldsJson ∧
    (POST job_description company role openaiKey completion fW fbW).modelCalled = false ∧
    (POST job_description company role openaiKey completion fW fbW).pdf = none := by
  rcases h with h | h | h <;> subst h <;> simp [POST, jsTruthy]

/-- Witness for C7 at a request with `job_description` absent. -/
theorem POST_missing_required_fields_witness :
    (POST none (some "Acme".data) (some "Dev".data) none none demoFont demoFont).status
      = 400 ∧
    (POST none (some "Acme".data) (some "Dev".data) none none demoFont demoFont).errorBody
      = some missingFieldsJson ∧
    (POST none (some "Acme".data) (some "Dev".data) none none demoFont
      demoFont).modelCalled = false ∧
    (POST none (some "Acme".data) (some "Dev".data) none none demoFont demoFont).pdf
      = none :=
  POST_missing_required_fields none (some "Acme".data) (some "Dev".data) none none
    demoFont demoFont (Or.inl rfl)

/-- C8 (amended): on the success path the response is a 200 PDF whose
`Content-Disposition` filename is
`Louis_Bailey_<sanitized company>_<sanitized role>.pdf`, where
sanitization replaces every character outside `[a-zA-Z0-9_]` with `_`;
at company `"Acme Inc."` and role `"Backend Eng."` the sanitized company
ends in `_`, so the filename is `Louis_Bailey_Acme_Inc__Backend_Eng_.pdf`
(double underscore), not `Louis_Bailey_Acme_Inc_Backend_Eng_.pdf`. -/
theorem POST_filename_amended
    (job_description company role openaiKey completion : Option (List Char))
    (fW fbW : List Char → Int → Int)
    (hjd : jsTruthy job_description = true) (hc : jsTruthy company = true)
    (hr : jsTruthy role = true) (hk : jsTruthy openaiKey = true)
    (hcomp : completion.getD [] ≠ []) :
    (POST job_description company role openaiKey completion fW fbW).status = 200 ∧
    (POST job_description company role openaiKey completion fW fbW).contentType
      = "application/pdf".data ∧
    (POST job_description company role openaiKey completion fW fbW).contentDisposition
      = some ("attachment; filename=\"".data
          ++ ("Louis_Bailey_".data ++ sanitizeFile (company.getD [])
            ++ ['_'] ++ sanitizeFile (role.getD []))
          ++ ".pdf\"".data) := by
  simp [POST, hjd, hc, hr, hk, hcomp]

/-- Witness for C8's amended claim at the end-to-end scenario's inputs:
the filename contains the double underscore. -/
theorem POST_filename_amended_witness :
    (POST (some "Build APIs".data) (some "Acme Inc.".data) (some "Backend Eng.".data)
      (some "k".data) (some stubResume) demoFont demoFont).contentDisposition
      = some "attachment; filename=\"Louis_Bailey_Acme_Inc__Backend_Eng_.pdf\"".data := by
  have h := POST_filename_amended (some "Build APIs".data) (some "Acme Inc.".data)
    (some "Backend Eng.".data) (some "k".data) (some stubResume) demoFont demoFont
    (by decide) (by decide) (by decide) (by decide) (by decide)
  exact h.2.2.trans (by decide)

/-- Counterexample for C8 as stated: at company `"Acme Inc."` and role
`"Backend Eng."`, the response filename is
`Louis_Bailey_Acme_Inc__Backend_Eng_.pdf` — not the claimed
`Louis_Bailey_Acme_Inc_Backend_Eng_.pdf`. -/
theorem POST_filename_counterexample :
    (POST (some "Build APIs".data) (some "Acme Inc.".data) (some "Backend Eng.".data)
      (some "k".data) (some stubResume) demoFont demoFont).contentDisposition
      = some "attachment; filename=\"Louis_Bailey_Acme_Inc__Backend_Eng_.pdf\"".data ∧
    (POST (some "Build APIs".data) (some "Acme Inc.".data) (some "Backend Eng.".data)
      (some "k".data) (some stubResume) demoFont demoFont).contentDisposition
      ≠ some "attachment; filename=\"Louis_Bailey_Acme_Inc_Backend_Eng_.pdf\"".data := by
  refine ⟨by decide, by decide⟩

/-! ## C9: the dead skills-accumulation buffer -/

theorem checkPage_skills (s : RState) : (checkPage s).skills = s.skills := by
  unfold checkPage; split <;> rfl

theorem drawBlock_skills (mk : Nat → Int → List Char → List Op) (h : Int) :
    ∀ (ls : List (List Char)) (s : RState), (drawBlock mk h ls s).skills = s.skills := by
  intro ls
  induction ls with
  | nil => intro s; rfl
  | cons l ls ih =>
    intro s
    show (drawBlock mk h ls (checkPage _)).skills = s.skills
    rw [ih, checkPage_skills]

theorem drawBlockNoCheck_skills (mk : Nat → Int → List Char → List Op) (h : Int) :
    ∀ (ls : List (List Char)) (s : RState),
      (drawBlockNoCheck mk h ls s).skills = s.skills := by
  intro ls
  induction ls with
  | nil => intro s; rfl
  | cons l ls ih => intro s; exact ih _

theorem processBodyLine_skills (fW fbW : List Char → Int → Int) (s : RState)
    (raw : List Char) : (processBodyLine fW fbW s raw).skills = s.skills := by
  unfold processBodyLine
  cases classifyBodyLine raw with
  | blank => rfl
  | sectionHeader line =>
    dsimp only
    rw [checkPage_skills]
    split
    · rw [show ({ drawBlock _ _ _ { s with y := s.y - 120 } with
        inSkillsSection := true } : RState).skills
          = (drawBlock _ _ _ { s with y := s.y - 120 } : RState).skills from rfl,
        drawBlock_skills]
    · rw [drawBlock_skills]
  | jobEntry t c p =>
    dsimp only
    rw [checkPage_skills]
    show (drawBlock _ _ _ (drawBlock _ _ _ (drawBlock _ _ _ _))).skills = s.skills
    rw [drawBlock_skills, drawBlock_skills, drawBlock_skills]
  | jobUnmatched => rw [checkPage_skills]
  | skillsCategory name => rw [checkPage_skills, drawBlock_skills]
  | plain line => rw [checkPage_skills, drawBlock_skills]

theorem renderHeader_skills (fW fbW : List Char → Int → Int) (pr : ParseResult) :
    (renderHeader fW fbW pr).skills = [] := by
  unfold renderHeader
  dsimp only
  split <;> split <;> simp [drawBlockNoCheck_skills, initState]

/-- C9: for every input document (and any font metrics), no operation of
the render loop ever appends to the skills accumulation buffer — it is
empty at the end of the loop — so the end-of-document branch that would
flow accumulated skills is unreachable and `generateResumePdf` returns
the body-loop state unchanged, drawing nothing further. -/
theorem skills_buffer_never_populated (fW fbW : List Char → Int → Int) :
    (∀ (s : RState) (raw : List Char),
      (processBodyLine fW fbW s raw).skills = s.skills) ∧
    (∀ resumeText : List Char,
      (renderBody fW fbW resumeText).skills = [] ∧
      generateResumePdf fW fbW resumeText = renderBody fW fbW resumeText) := by
  have hfold : ∀ (lines : List (List Char)) (s : RState),
      (lines.foldl (processBodyLine fW fbW) s).skills = s.skills := by
    intro lines
    induction lines with
    | nil => intro s; rfl
    | cons l ls ih =>
      intro s
      rw [List.foldl_cons, ih, processBodyLine_skills]
  have hbody : ∀ resumeText : List Char, (renderBody fW fbW resumeText).skills = [] := by
    intro resumeText
    unfold renderBody
    rw [hfold, renderHeader_skills]
  refine ⟨processBodyLine_skills fW fbW, fun resumeText => ⟨hbody resumeText, ?_⟩⟩
  unfold generateResumePdf finalSkills
  rw [if_neg]
  intro hand
  exact hand.2 (hbody resumeText)

/-! ## C3: the Page Flow Engine -/

theorem checkPage_ops (s : RState) : (checkPage s).ops = s.ops := by
  unfold checkPage; split <;> rfl

theorem checkPage_y_ge (s : RState) : MARGIN_BOTTOM ≤ (checkPage s).y := by
  unfold checkPage
  split
  · show MARGIN_BOTTOM ≤ PAGE_HEIGHT - MARGIN_TOP
    decide
  · next h => exact le_of_not_lt h

theorem checkPage_pagesA4 (s : RState)
    (hs : ∀ pg ∈ s.pages, pg = (PAGE_WIDTH, PAGE_HEIGHT)) :
    ∀ pg ∈ (checkPage s).pages, pg = (PAGE_WIDTH, PAGE_HEIGHT) := by
  unfold checkPage
  split
  · intro pg hpg
    rcases List.mem_append.mp hpg with h1 | h1
    · exact hs pg h1
    · simpa using h1
  · exact hs

theorem drawBlock_pagesA4 (mk : Nat → Int → List Char → List Op) (h : Int) :
    ∀ (ls : List (List Char)) (s : RState),
      (∀ pg ∈ s.pages, pg = (PAGE_WIDTH, PAGE_HEIGHT)) →
      ∀ pg ∈ (drawBlock mk h ls s).pages, pg = (PAGE_WIDTH, PAGE_HEIGHT) := by
  intro ls
  induction ls with
  | nil => intro s hs; exact hs
  | cons l ls ih =>
    intro s hs
    exact ih _ (checkPage_pagesA4 _ hs)

theorem drawBlockNoCheck_pages (mk : Nat → Int → List Char → List Op) (h : Int) :
    ∀ (ls : List (List Char)) (s : RState), (drawBlockNoCheck mk h ls s).pages = s.pages := by
  intro ls
  induction ls with
  | nil => intro s; rfl
  | cons l ls ih => intro s; exact ih _

theorem processBodyLine_pagesA4 (fW fbW : List Char → Int → Int) (s : RState)
    (raw : List Char) (hs : ∀ pg ∈ s.pages, pg = (PAGE_WIDTH, PAGE_HEIGHT)) :
    ∀ pg ∈ (processBodyLine fW fbW s raw).pages, pg = (PAGE_WIDTH, PAGE_HEIGHT) := by
  unfold processBodyLine
  cases classifyBodyLine raw with
  | blank => exact hs
  | sectionHeader line =>
    dsimp only
    apply checkPage_pagesA4
    split
    · exact drawBlock_pagesA4 _ _ _ _ hs
    · exact drawBlock_pagesA4 _ _ _ _ hs
  | jobEntry t c p =>
    dsimp only
    apply checkPage_pagesA4
    exact drawBlock_pagesA4 _ _ _ _ (drawBlock_pagesA4 _ _ _ _ (drawBlock_pagesA4 _ _ _ _ hs))
  | jobUnmatched => exact checkPage_pagesA4 _ hs
  | skillsCategory name => exact checkPage_pagesA4 _ (drawBlock_pagesA4 _ _ _ _ hs)
  | plain line => exact checkPage_pagesA4 _ (drawBlock_pagesA4 _ _ _ _ hs)

theorem renderHeader_pages (fW fbW : List Char → Int → Int) (pr : ParseResult) :
    (renderHeader fW fbW pr).pages = [(PAGE_WIDTH, PAGE_HEIGHT)] := by
  unfold renderHeader
  dsimp only
  split <;> split <;> simp [drawBlockNoCheck_pages, initState]

theorem drawBlock_bound (mk : Nat → Int → List Char → List Op) (h : Int)
    (hmk : ∀ pg y l, ∀ op ∈ mk pg y l, opY op = y) :
    ∀ (ls : List (List Char)) (s : RState),
      (∀ op ∈ (drawBlock mk h ls s).ops,
        op ∈ s.ops ∨ min s.y MARGIN_BOTTOM ≤ opY op) ∧
      min s.y MARGIN_BOTTOM ≤ (drawBlock mk h ls s).y := by
  intro ls
  induction ls with
  | nil =>
    intro s
    exact ⟨fun op hop => Or.inl hop, min_le_left _ _⟩
  | cons l ls ih =>
    intro s
    have hmin : min s.y MARGIN_BOTTOM ≤ MARGIN_BOTTOM := min_le_right _ _
    have hymin : min s.y MARGIN_BOTTOM ≤ s.y := min_le_left _ _
    show (∀ op ∈ (drawBlock mk h ls (checkPage _)).ops, _) ∧ _
    set st1 : RState := { s with ops := s.ops ++ mk s.cur s.y l, y := s.y - h } with hst1
    have h2y : MARGIN_BOTTOM ≤ (checkPage st1).y := checkPage_y_ge st1
    have ihh := ih (checkPage st1)
    constructor
    · intro op hop
      rcases ihh.1 op hop with hmem | hbound
      · rw [checkPage_ops] at hmem
        rcases List.mem_append.mp hmem with h1 | h1
        · exact Or.inl h1
        · right
          rw [hmk s.cur s.y l op h1]
          exact hymin
      · right
        calc min s.y MARGIN_BOTTOM ≤ MARGIN_BOTTOM := hmin
          _ = min (checkPage st1).y MARGIN_BOTTOM := (min_eq_right h2y).symm
          _ ≤ opY op := hbound
    · calc min s.y MARGIN_BOTTOM ≤ MARGIN_BOTTOM := hmin
        _ = min (checkPage st1).y MARGIN_BOTTOM := (min_eq_right h2y).symm
        _ ≤ _ := ihh.2

theorem classify_blank_of_trim (raw : List Char) (h : jsTrim raw ≠ []) :
    classifyBodyLine raw ≠ ClassifiedLine.blank := by
  intro hcontra
  unfold classifyBodyLine at hcontra
  rw [if_neg h] at hcontra
  split at hcontra
  · cases hcontra
  · split at hcontra
    · split at hcontra
      · cases hcontra
      · cases hcontra
    · split at hcontra
      · cases hcontra
      · cases hcontra

theorem drawBlock_bound_ge (mk : Nat → Int → List Char → List Op) (h : Int)
    (hmk : ∀ pg y l, ∀ op ∈ mk pg y l, opY op = y)
    (ls : List (List Char)) (s : RState) (b : Int)
    (hb1 : b ≤ s.y) (hb2 : b ≤ MARGIN_BOTTOM) :
    (∀ op ∈ (drawBlock mk h ls s).ops, op ∈ s.ops ∨ b ≤ opY op) ∧
    b ≤ (drawBlock mk h ls s).y := by
  have hd := drawBlock_bound mk h hmk ls s
  have hmin : b ≤ min s.y MARGIN_BOTTOM := le_min hb1 hb2
  exact ⟨fun op hop => (hd.1 op hop).imp id (le_trans hmin), le_trans hmin hd.2⟩

theorem opY_single (x sz : Int) (bd : Bool) :
    ∀ (pg : Nat) (y : Int) (l : List Char),
      ∀ op ∈ [Op.text pg x y l sz bd], opY op = y := by
  intro pg y l op hop
  simp only [List.mem_singleton] at hop
  subst hop
  rfl

theorem opY_runs (fW fbW : List Char → Int → Int) (x sz : Int) :
    ∀ (pg : Nat) (y : Int) (l : List Char),
      ∀ op ∈ (drawTextWithBold fW fbW l x sz).map
        (fun r => Op.text pg r.x y r.content sz r.bold), opY op = y := by
  intro pg y l op hop
  rcases List.mem_map.mp hop with ⟨r, _, rfl⟩
  rfl

theorem processBodyLine_bound (fW fbW : List Char → Int → Int) (s : RState)
    (raw : List Char) (hy : MARGIN_BOTTOM ≤ s.y) (hnb : jsTrim raw ≠ []) :
    (∀ op ∈ (processBodyLine fW fbW s raw).ops,
      op ∈ s.ops ∨ MARGIN_BOTTOM - 120 ≤ opY op) ∧
    MARGIN_BOTTOM ≤ (processBodyLine fW fbW s raw).y := by
  unfold processBodyLine
  cases hcl : classifyBodyLine raw with
  | blank => exact absurd hcl (classify_blank_of_trim raw hnb)
  | sectionHeader line =>
    dsimp only
    have hb := drawBlock_bound_ge
      (fun pg y l => [Op.text pg MARGIN_LEFT y l SECTION_HEADER_SIZE true])
      SECTION_LINE_HEIGHT (opY_single MARGIN_LEFT SECTION_HEADER_SIZE true)
      (wrapText line fbW SECTION_HEADER_SIZE CONTENT_WIDTH)
      { s with y := s.y - 120 } (MARGIN_BOTTOM - 120)
      (by show MARGIN_BOTTOM - 120 ≤ s.y - 120; omega) (by decide)
    refine ⟨?_, checkPage_y_ge _⟩
    intro op hop
    rw [checkPage_ops] at hop
    have hops3 : ∀ s2 : RState,
        (if line.map Char.toLower = "skills:".data
          then ({ s2 with inSkillsSection := true } : RState) else s2).ops = s2.ops := by
      intro s2; split <;> rfl
    rw [hops3] at hop
    exact hb.1 op hop
  | jobEntry t c p =>
    dsimp only
    have hb1 := drawBlock_bound_ge
      (fun pg y l => [Op.text pg (MARGIN_LEFT + 100) y l (BODY_SIZE + 10) true])
      (BODY_LINE_HEIGHT + 20) (opY_single (MARGIN_LEFT + 100) (BODY_SIZE + 10) true)
      (wrapText (jsTrim t) fbW (BODY_SIZE + 10) (CONTENT_WIDTH - 100))
      { s with y := s.y - 80 } (MARGIN_BOTTOM - 80)
      (by show MARGIN_BOTTOM - 80 ≤ s.y - 80; omega) (by decide)
    have hb2 := drawBlock_bound_ge
      (fun pg y l => [Op.text pg (MARGIN_LEFT + 100) y l BODY_SIZE false])
      BODY_LINE_HEIGHT (opY_single (MARGIN_LEFT + 100) BODY_SIZE false)
      (wrapText (jsTrim c) fW BODY_SIZE (CONTENT_WIDTH - 100)) _
      (MARGIN_BOTTOM - 80) hb1.2 (by decide)
    have hb3 := drawBlock_bound_ge
      (fun pg y l => [Op.text pg (MARGIN_LEFT + 100) y l (BODY_SIZE - 10) false])
      (BODY_LINE_HEIGHT - 20) (opY_single (MARGIN_LEFT + 100) (BODY_SIZE - 10) false)
      (wrapText (formatDate (jsTrim p)) fW (BODY_SIZE - 10) (CONTENT_WIDTH - 100)) _
      (MARGIN_BOTTOM - 80) hb2.2 (by decide)
    refine ⟨?_, checkPage_y_ge _⟩
    intro op hop
    rw [checkPage_ops] at hop
    have htrans : MARGIN_BOTTOM - 120 ≤ MARGIN_BOTTOM - 80 := by decide
    rcases hb3.1 op hop with hm3 | hbd
    · rcases hb2.1 op hm3 with hm2 | hbd
      · rcases hb1.1 op hm2 with hm1 | hbd
        · exact Or.inl hm1
        · exact Or.inr (le_trans htrans hbd)
      · exact Or.inr (le_trans htrans hbd)
    · exact Or.inr (le_trans htrans hbd)
  | jobUnmatched =>
    refine ⟨?_, checkPage_y_ge _⟩
    intro op hop
    rw [checkPage_ops] at hop
    exact Or.inl hop
  | skillsCategory name =>
    dsimp only
    have hb := drawBlock_bound_ge
      (fun pg y l => [Op.text pg (MARGIN_LEFT + 100) y l (BODY_SIZE + 10) true])
      (BODY_LINE_HEIGHT + 20) (opY_single (MARGIN_LEFT + 100) (BODY_SIZE + 10) true)
      (wrapText name fbW (BODY_SIZE + 10) (CONTENT_WIDTH - 200)) s
      MARGIN_BOTTOM hy (le_refl _)
    refine ⟨?_, checkPage_y_ge _⟩
    intro op hop
    rw [checkPage_ops] at hop
    exact (hb.1 op hop).imp id (fun hbd => le_trans (by decide) hbd)
  | plain line =>
    dsimp only
    have hb := drawBlock_bound_ge
      (fun pg y l => (drawTextWithBold fW fbW l (MARGIN_LEFT + 100) BODY_SIZE).map
        (fun r => Op.text pg r.x y r.content BODY_SIZE r.bold))
      BODY_LINE_HEIGHT (opY_runs fW fbW (MARGIN_LEFT + 100) BODY_SIZE)
      (wrapText line fW BODY_SIZE (CONTENT_WIDTH - 100)) s
      MARGIN_BOTTOM hy (le_refl _)
    refine ⟨?_, checkPage_y_ge _⟩
    intro op hop
    rw [checkPage_ops] at hop
    exact (hb.1 op hop).imp id (fun hbd => le_trans (by decide) hbd)

theorem checkPage_pages_le (s : RState) :
    s.pages.length ≤ (checkPage s).pages.length := by
  unfold checkPage
  split
  · simp
  · exact le_refl _

theorem checkPage_id_of_pages (s : RState)
    (h : (checkPage s).pages.length = s.pages.length) : checkPage s = s := by
  unfold checkPage at h ⊢
  by_cases hc : s.y < MARGIN_BOTTOM
  · rw [if_pos hc] at h
    simp at h
  · rw [if_neg hc]

theorem drawBlock_pages_le (mk : Nat → Int → List Char → List Op) (h : Int) :
    ∀ (ls : List (List Char)) (s : RState),
      s.pages.length ≤ (drawBlock mk h ls s).pages.length := by
  intro ls
  induction ls with
  | nil => intro s; exact le_refl _
  | cons l ls ih =>
    intro s
    show s.pages.length ≤ (drawBlock mk h ls (checkPage
      { s with ops := s.ops ++ mk s.cur s.y l, y := s.y - h })).pages.length
    exact le_trans
      (checkPage_pages_le { s with ops := s.ops ++ mk s.cur s.y l, y := s.y - h })
      (ih (checkPage { s with ops := s.ops ++ mk s.cur s.y l, y := s.y - h }))

theorem drawBlock_nofire (mk : Nat → Int → List Char → List Op) (h : Int) :
    ∀ (ls : List (List Char)) (s : RState),
      (drawBlock mk h ls s).pages.length = s.pages.length →
      (drawBlock mk h ls s).y = s.y - h * ls.length := by
  intro ls
  induction ls with
  | nil =>
    intro s _
    show s.y = s.y - h * ((0 : Nat) : Int)
    simp
  | cons l ls ih =>
    intro s hlen
    have hstep : drawBlock mk h (l :: ls) s
        = drawBlock mk h ls (checkPage { s with ops := s.ops ++ mk s.cur s.y l, y := s.y - h }) :=
      rfl
    rw [hstep] at hlen ⊢
    set st1 : RState := { s with ops := s.ops ++ mk s.cur s.y l, y := s.y - h } with hst1
    have hcl : (checkPage st1).pages.length = st1.pages.length := by
      have h1 : st1.pages.length ≤ (checkPage st1).pages.length := checkPage_pages_le st1
      have h2 : (checkPage st1).pages.length
          ≤ (drawBlock mk h ls (checkPage st1)).pages.length := drawBlock_pages_le mk h ls _
      have h3 : st1.pages.length = s.pages.length := rfl
      omega
    rw [checkPage_id_of_pages st1 hcl] at hlen ⊢
    have hy := ih st1 (by rw [hlen])
    rw [hy]
    have hy1 : st1.y = s.y - h := rfl
    rw [hy1, List.length_cons]
    push_cast
    ring

theorem processBodyLine_pages_le (fW fbW : List Char → Int → Int) (s : RState)
    (raw : List Char) :
    s.pages.length ≤ (processBodyLine fW fbW s raw).pages.length := by
  unfold processBodyLine
  cases hcl : classifyBodyLine raw with
  | blank => exact le_refl _
  | sectionHeader line =>
    dsimp only
    set s2 : RState := drawBlock
      (fun pg y l => [Op.text pg MARGIN_LEFT y l SECTION_HEADER_SIZE true])
      SECTION_LINE_HEIGHT (wrapText line fbW SECTION_HEADER_SIZE CONTENT_WIDTH)
      { s with y := s.y - 120 } with hs2
    set s3 : RState := (if line.map Char.toLower = "skills:".data
      then ({ s2 with inSkillsSection := true } : RState) else s2) with hs3
    have h3p : s3.pages = s2.pages := by rw [hs3]; split <;> rfl
    have ha1 : s.pages.length ≤ s2.pages.length := by
      rw [hs2]; exact drawBlock_pages_le _ _ _ { s with y := s.y - 120 }
    have ha2 : s3.pages.length ≤ (checkPage s3).pages.length := checkPage_pages_le s3
    rw [h3p] at ha2
    show s.pages.length ≤ (checkPage s3).pages.length
    omega
  | jobEntry t c p =>
    dsimp only
    set s2 : RState := drawBlock
      (fun pg y l => [Op.text pg (MARGIN_LEFT + 100) y l (BODY_SIZE + 10) true])
      (BODY_LINE_HEIGHT + 20)
      (wrapText (jsTrim t) fbW (BODY_SIZE + 10) (CONTENT_WIDTH - 100))
      { s with y := s.y - 80 } with hs2
    set s3 : RState := drawBlock
      (fun pg y l => [Op.text pg (MARGIN_LEFT + 100) y l BODY_SIZE false])
      BODY_LINE_HEIGHT (wrapText (jsTrim c) fW BODY_SIZE (CONTENT_WIDTH - 100)) s2 with hs3
    set s4 : RState := drawBlock
      (fun pg y l => [Op.text pg (MARGIN_LEFT + 100) y l (BODY_SIZE - 10) false])
      (BODY_LINE_HEIGHT - 20)
      (wrapText (formatDate (jsTrim p)) fW (BODY_SIZE - 10) (CONTENT_WIDTH - 100)) s3 with hs4
    have ha1 : s.pages.length ≤ s2.pages.length := by
      rw [hs2]; exact drawBlock_pages_le _ _ _ { s with y := s.y - 80 }
    have ha2 : s2.pages.length ≤ s3.pages.length := by
      rw [hs3]; exact drawBlock_pages_le _ _ _ s2
    have ha3 : s3.pages.length ≤ s4.pages.length := by
      rw [hs4]; exact drawBlock_pages_le _ _ _ s3
    have ha4 : s4.pages.length ≤ (checkPage { s4 with y := s4.y - 40 }).pages.length :=
      checkPage_pages_le { s4 with y := s4.y - 40 }
    show s.pages.length ≤ (checkPage { s4 with y := s4.y - 40 }).pages.length
    omega
  | jobUnmatched => exact checkPage_pages_le _
  | skillsCategory name =>
    dsimp only
    exact le_trans (drawBlock_pages_le _ _ _ _) (checkPage_pages_le _)
  | plain line =>
    dsimp only
    exact le_trans (drawBlock_pages_le _ _ _ _) (checkPage_pages_le _)

theorem processBodyLine_nofire (fW fbW : List Char → Int → Int) (s : RState)
    (raw : List Char)
    (hlen : (processBodyLine fW fbW s raw).pages.length = s.pages.length) :
    (processBodyLine fW fbW s raw).y = s.y - lineDrop fW fbW raw := by
  unfold processBodyLine at hlen ⊢
  unfold lineDrop
  cases hcl : classifyBodyLine raw with
  | blank => rfl
  | sectionHeader line =>
    rw [hcl] at hlen
    dsimp only at hlen ⊢
    set s2 : RState := drawBlock
      (fun pg y l => [Op.text pg MARGIN_LEFT y l SECTION_HEADER_SIZE true])
      SECTION_LINE_HEIGHT (wrapText line fbW SECTION_HEADER_SIZE CONTENT_WIDTH)
      { s with y := s.y - 120 } with hs2
    set s3 : RState := (if line.map Char.toLower = "skills:".data
      then ({ s2 with inSkillsSection := true } : RState) else s2) with hs3
    have h3p : s3.pages = s2.pages := by rw [hs3]; split <;> rfl
    have h3y : s3.y = s2.y := by rw [hs3]; split <;> rfl
    have h2len : s2.pages.length = s.pages.length := by
      have ha : s.pages.length ≤ s2.pages.length := by
        rw [hs2]; exact drawBlock_pages_le _ _ _ { s with y := s.y - 120 }
      have hb : s3.pages.length ≤ (checkPage s3).pages.length := checkPage_pages_le _
      rw [h3p] at hb
      omega
    have hclen : (checkPage s3).pages.length = s3.pages.length := by
      rw [h3p, h2len]; exact hlen
    rw [checkPage_id_of_pages s3 hclen, h3y]
    have hdb := drawBlock_nofire _ SECTION_LINE_HEIGHT
      (wrapText line fbW SECTION_HEADER_SIZE CONTENT_WIDTH)
      { s with y := s.y - 120 } (by rw [← hs2, h2len])
    rw [← hs2] at hdb
    rw [hdb]
    show s.y - 120 - _ = _
    ring
  | jobEntry t c p =>
    rw [hcl] at hlen
    dsimp only at hlen ⊢
    set s2 : RState := drawBlock
      (fun pg y l => [Op.text pg (MARGIN_LEFT + 100) y l (BODY_SIZE + 10) true])
      (BODY_LINE_HEIGHT + 20)
      (wrapText (jsTrim t) fbW (BODY_SIZE + 10) (CONTENT_WIDTH - 100))
      { s with y := s.y - 80 } with hs2
    set s3 : RState := drawBlock
      (fun pg y l => [Op.text pg (MARGIN_LEFT + 100) y l BODY_SIZE false])
      BODY_LINE_HEIGHT (wrapText (jsTrim c) fW BODY_SIZE (CONTENT_WIDTH - 100)) s2 with hs3
    set s4 : RState := drawBlock
      (fun pg y l => [Op.text pg (MARGIN_LEFT + 100) y l (BODY_SIZE - 10) false])
      (BODY_LINE_HEIGHT - 20)
      (wrapText (formatDate (jsTrim p)) fW (BODY_SIZE - 10) (CONTENT_WIDTH - 100)) s3 with hs4
    have ha1 : s.pages.length ≤ s2.pages.length := by
      rw [hs2]; exact drawBlock_pages_le _ _ _ { s with y := s.y - 80 }
    have ha2 : s2.pages.length ≤ s3.pages.length := by
      rw [hs3]; exact drawBlock_pages_le _ _ _ s2
    have ha3 : s3.pages.length ≤ s4.pages.length := by
      rw [hs4]; exact drawBlock_pages_le _ _ _ s3
    have ha4 : s4.pages.length
        ≤ (checkPage { s4 with y := s4.y - 40 }).pages.length :=
      checkPage_pages_le { s4 with y := s4.y - 40 }
    have h2len : s2.pages.length = s.pages.length := by omega
    have h3len : s3.pages.length = s2.pages.length := by omega
    have h4len : s4.pages.length = s3.pages.length := by omega
    have hclen : (checkPage { s4 with y := s4.y - 40 }).pages.length
        = ({ s4 with y := s4.y - 40 } : RState).pages.length := by
      show _ = s4.pages.length
      omega
    rw [checkPage_id_of_pages _ hclen]
    have hdb2 := drawBlock_nofire _ (BODY_LINE_HEIGHT + 20)
      (wrapText (jsTrim t) fbW (BODY_SIZE + 10) (CONTENT_WIDTH - 100))
      { s with y := s.y - 80 } (by rw [← hs2, h2len])
    rw [← hs2] at hdb2
    have hdb3 := drawBlock_nofire _ BODY_LINE_HEIGHT
      (wrapText (jsTrim c) fW BODY_SIZE (CONTENT_WIDTH - 100)) s2
      (by rw [← hs3, h3len])
    rw [← hs3] at hdb3
    have hdb4 := drawBlock_nofire _ (BODY_LINE_HEIGHT - 20)
      (wrapText (formatDate (jsTrim p)) fW (BODY_SIZE - 10) (CONTENT_WIDTH - 100)) s3
      (by rw [← hs4, h4len])
    rw [← hs4] at hdb4
    show s4.y - 40 = _
    rw [hdb4, hdb3, hdb2]
    show s.y - 80 - _ - _ - _ - 40 = _
    ring
  | jobUnmatched =>
    rw [hcl] at hlen
    dsimp only at hlen ⊢
    rw [checkPage_id_of_pages s hlen]
    ring
  | skillsCategory name =>
    rw [hcl] at hlen
    dsimp only at hlen ⊢
    set s2 : RState := drawBlock
      (fun pg y l => [Op.text pg (MARGIN_LEFT + 100) y l (BODY_SIZE + 10) true])
      (BODY_LINE_HEIGHT + 20)
      (wrapText name fbW (BODY_SIZE + 10) (CONTENT_WIDTH - 200)) s with hs2
    have ha1 : s.pages.length ≤ s2.pages.length := by
      rw [hs2]; exact drawBlock_pages_le _ _ _ s
    have ha2 : s2.pages.length ≤ (checkPage s2).pages.length := checkPage_pages_le _
    have h2len : s2.pages.length = s.pages.length := by omega
    have hclen : (checkPage s2).pages.length = s2.pages.length := by omega
    rw [checkPage_id_of_pages s2 hclen]
    have hdb := drawBlock_nofire _ (BODY_LINE_HEIGHT + 20)
      (wrapText name fbW (BODY_SIZE + 10) (CONTENT_WIDTH - 200)) s
      (by rw [← hs2, h2len])
    rw [← hs2] at hdb
    rw [hdb]
  | plain line =>
    rw [hcl] at hlen
    dsimp only at hlen ⊢
    set s2 : RState := drawBlock
      (fun pg y l => (drawTextWithBold fW fbW l (MARGIN_LEFT + 100) BODY_SIZE).map
        (fun r => Op.text pg r.x y r.content BODY_SIZE r.bold))
      BODY_LINE_HEIGHT (wrapText line fW BODY_SIZE (CONTENT_WIDTH - 100)) s with hs2
    have ha1 : s.pages.length ≤ s2.pages.length := by
      rw [hs2]; exact drawBlock_pages_le _ _ _ s
    have ha2 : s2.pages.length ≤ (checkPage s2).pages.length := checkPage_pages_le _
    have h2len : s2.pages.length = s.pages.length := by omega
    have hclen : (checkPage s2).pages.length = s2.pages.length := by omega
    rw [checkPage_id_of_pages s2 hclen]
    have hdb := drawBlock_nofire _ BODY_LINE_HEIGHT
      (wrapText line fW BODY_SIZE (CONTENT_WIDTH - 100)) s
      (by rw [← hs2, h2len])
    rw [← hs2] at hdb
    rw [hdb]

theorem foldBody_pages_le (fW fbW : List Char → Int → Int) :
    ∀ (lines : List (List Char)) (s : RState),
      s.pages.length ≤ (lines.foldl (processBodyLine fW fbW) s).pages.length := by
  intro lines
  induction lines with
  | nil => intro s; exact le_refl _
  | cons l ls ih =>
    intro s
    rw [List.foldl_cons]
    exact le_trans (processBodyLine_pages_le fW fbW s l) (ih _)

theorem foldBody_nofire (fW fbW : List Char → Int → Int) :
    ∀ (lines : List (List Char)) (s : RState),
      (lines.foldl (processBodyLine fW fbW) s).pages.length = s.pages.length →
      (lines.foldl (processBodyLine fW fbW) s).y
        = s.y - (lines.map (lineDrop fW fbW)).sum := by
  intro lines
  induction lines with
  | nil =>
    intro s _
    simp
  | cons l ls ih =>
    intro s hlen
    rw [List.foldl_cons] at hlen ⊢
    have h1 : s.pages.length ≤ (processBodyLine fW fbW s l).pages.length :=
      processBodyLine_pages_le fW fbW s l
    have h2 : (processBodyLine fW fbW s l).pages.length
        ≤ (ls.foldl (processBodyLine fW fbW) (processBodyLine fW fbW s l)).pages.length :=
      foldBody_pages_le fW fbW ls _
    have hP : (processBodyLine fW fbW s l).pages.length = s.pages.length := by omega
    have hrec := ih (processBodyLine fW fbW s l) (by omega)
    have hone := processBodyLine_nofire fW fbW s l hP
    rw [hrec, hone, List.map_cons, List.sum_cons]
    ring

theorem processBodyLine_y_ge_nonblank (fW fbW : List Char → Int → Int) (s : RState)
    (raw : List Char) (hnb : jsTrim raw ≠ []) :
    MARGIN_BOTTOM ≤ (processBodyLine fW fbW s raw).y := by
  unfold processBodyLine
  cases hcl : classifyBodyLine raw with
  | blank => exact absurd hcl (classify_blank_of_trim raw hnb)
  | sectionHeader line => exact checkPage_y_ge _
  | jobEntry t c p => exact checkPage_y_ge _
  | jobUnmatched => exact checkPage_y_ge _
  | skillsCategory name => exact checkPage_y_ge _
  | plain line => exact checkPage_y_ge _

theorem finalSkills_pages_le (fW : List Char → Int → Int) (s : RState) :
    s.pages.length ≤ (finalSkills fW s).pages.length := by
  unfold finalSkills
  split
  · exact drawBlock_pages_le _ _ _ _
  · exact le_refl _

/-- C3 (amended): every page of the output document has the same fixed
A4 size, and the pagination check — run after each drawn wrapped line and
once more after each non-blank body line, with the cursor reset to the
top margin on a break — guarantees that, over any run of body lines with
no blanks started at or above the bottom margin, every newly drawn
operation sits at or above `MARGIN_BOTTOM - 120` (the largest unchecked
pre-gap, 12 points) and the cursor ends at or above the bottom margin;
and any body ending in a drawn (non-blank) line whose total drawn height
(the sum of the per-line cursor drops) exceeds the space between the
post-header cursor and the bottom margin yields more than one page.
Blank lines advance the cursor without any check (`continue` skips the
end-of-iteration check), so with blank lines a drawn line's y-coordinate
can fall below the bottom margin — see the counterexample. -/
theorem generateResumePdf_pagination_amended (fW fbW : List Char → Int → Int) :
    (∀ resumeText : List Char,
      ∀ pg ∈ (generateResumePdf fW fbW resumeText).pages, pg = (PAGE_WIDTH, PAGE_HEIGHT)) ∧
    (∀ (lines : List (List Char)) (s : RState),
      MARGIN_BOTTOM ≤ s.y → (∀ l ∈ lines, jsTrim l ≠ []) →
      (∀ op ∈ (lines.foldl (processBodyLine fW fbW) s).ops,
        op ∈ s.ops ∨ MARGIN_BOTTOM - 120 ≤ opY op) ∧
      MARGIN_BOTTOM ≤ (lines.foldl (processBodyLine fW fbW) s).y) ∧
    (∀ (resumeText : List Char) (pre : List (List Char)) (lastL : List Char),
      jsSplit '\n' (parseResume resumeText).body = pre ++ [lastL] →
      jsTrim lastL ≠ [] →
      (renderHeader fW fbW (parseResume resumeText)).y - MARGIN_BOTTOM
        < (((pre ++ [lastL]).map (lineDrop fW fbW)).sum) →
      1 < (generateResumePdf fW fbW resumeText).pages.length) := by
  refine ⟨?_, ?_, ?_⟩
  · intro resumeText
    unfold generateResumePdf
    have hfoldPA : ∀ (lines : List (List Char)) (st : RState),
        (∀ pg ∈ st.pages, pg = (PAGE_WIDTH, PAGE_HEIGHT)) →
        ∀ pg ∈ (lines.foldl (processBodyLine fW fbW) st).pages,
          pg = (PAGE_WIDTH, PAGE_HEIGHT) := by
      intro lines
      induction lines with
      | nil => intro st hst; exact hst
      | cons l ls ih =>
        intro st hst
        rw [List.foldl_cons]
        exact ih _ (processBodyLine_pagesA4 fW fbW _ l hst)
    have hbody : ∀ pg ∈ (renderBody fW fbW resumeText).pages, pg = (PAGE_WIDTH, PAGE_HEIGHT) := by
      unfold renderBody
      dsimp only
      refine hfoldPA _ _ ?_
      rw [renderHeader_pages]
      intro pg hpg
      simpa using hpg
    unfold finalSkills
    split
    · exact drawBlock_pagesA4 _ _ _ _ hbody
    · exact hbody
  · intro lines
    induction lines with
    | nil =>
      intro s hy _
      exact ⟨fun op hop => Or.inl hop, hy⟩
    | cons l ls ih =>
      intro s hy hnb
      rw [List.foldl_cons]
      have hl := processBodyLine_bound fW fbW s l hy (hnb l (List.mem_cons_self l ls))
      have ihh := ih (processBodyLine fW fbW s l) hl.2
        (fun l2 hl2 => hnb l2 (List.mem_cons_of_mem l hl2))
      refine ⟨?_, ihh.2⟩
      intro op hop
      rcases ihh.1 op hop with hm | hbd
      · exact hl.1 op hm
      · exact Or.inr hbd
  · intro resumeText pre lastL hsplit hnb hover
    by_contra hle
    push_neg at hle
    have hrb : renderBody fW fbW resumeText
        = (pre ++ [lastL]).foldl (processBodyLine fW fbW)
            (renderHeader fW fbW (parseResume resumeText)) := by
      unfold renderBody
      dsimp only
      rw [hsplit]
    have hs0len : (renderHeader fW fbW (parseResume resumeText)).pages.length = 1 := by
      rw [renderHeader_pages]
      rfl
    have h1 : (renderHeader fW fbW (parseResume resumeText)).pages.length
        ≤ (renderBody fW fbW resumeText).pages.length := by
      rw [hrb]
      exact foldBody_pages_le fW fbW _ _
    have h2 : (renderBody fW fbW resumeText).pages.length
        ≤ (generateResumePdf fW fbW resumeText).pages.length := by
      unfold generateResumePdf
      exact finalSkills_pages_le fW _
    have hEq : (renderBody fW fbW resumeText).pages.length
        = (renderHeader fW fbW (parseResume resumeText)).pages.length := by omega
    have hy : (renderBody fW fbW resumeText).y
        = (renderHeader fW fbW (parseResume resumeText)).y
          - ((pre ++ [lastL]).map (lineDrop fW fbW)).sum := by
      rw [hrb] at hEq ⊢
      exact foldBody_nofire fW fbW _ _ hEq
    have hlow : (renderBody fW fbW resumeText).y < MARGIN_BOTTOM := by omega
    have hlast : renderBody fW fbW resumeText
        = processBodyLine fW fbW
            (pre.foldl (processBodyLine fW fbW)
              (renderHeader fW fbW (parseResume resumeText))) lastL := by
      rw [hrb, List.foldl_append]
      rfl
    have hge := processBodyLine_y_ge_nonblank fW fbW
      (pre.foldl (processBodyLine fW fbW)
        (renderHeader fW fbW (parseResume resumeText))) lastL hnb
    rw [← hlast] at hge
    omega

/-- Witness for C3's amended claim: one plain body line processed from
the initial state stays within bounds (the drawn operation is either
pre-existing or at/above the reduced bound), and `longResume` — 46 drawn
body lines whose total drop exceeds the space under the header — yields
more than one page. -/
theorem generateResumePdf_pagination_amended_witness :
    ((Op.text 0 (MARGIN_LEFT + 100) (PAGE_HEIGHT - MARGIN_TOP) "a".data BODY_SIZE false
        ∈ initState.ops ∨
      MARGIN_BOTTOM - 120
        ≤ opY (Op.text 0 (MARGIN_LEFT + 100) (PAGE_HEIGHT - MARGIN_TOP) "a".data
            BODY_SIZE false)) ∧
    MARGIN_BOTTOM ≤ (([("a".data)] : List (List Char)).foldl
      (processBodyLine demoFont demoFont) initState).y) ∧
    1 < (generateResumePdf demoFont demoFont longResume).pages.length := by
  have h := (generateResumePdf_pagination_amended demoFont demoFont).2.1
    [("a".data)] initState (by decide) (by decide)
  refine ⟨⟨h.1 _ (by decide), h.2⟩, ?_⟩
  exact (generateResumePdf_pagination_amended demoFont demoFont).2.2 longResume
    (List.replicate 45 "a".data) "a".data (by decide) (by decide) (by decide)

/-- Counterexample for C3 as stated: in `overflowResume` a run of blank
lines moves the cursor far below the bottom margin with no pagination
check (blank lines `continue` past it), and the next plain line is drawn
there — a drawn line's y-coordinate is below the bottom margin. -/
theorem generateResumePdf_pagination_counterexample :
    ¬ (∀ op ∈ (generateResumePdf demoFont demoFont overflowResume).ops,
        MARGIN_BOTTOM ≤ opY op) := by decide

/-! ## Concrete behavioral checks

Small executable sanity checks of the embedding against hand-traced runs
of the source (all discharged by kernel evaluation). -/

example : ((generateResumePdf demoFont demoFont overflowResume).ops.any
    (fun op => decide (opY op < MARGIN_BOTTOM))) = true := by decide
example : (generateResumePdf demoFont demoFont overflowResume).pages.length = 2 := by decide
example : (generateResumePdf demoFont demoFont longResume).pages.length = 2 := by decide
example : (POST (some "Build APIs".data) (some "Acme Inc.".data) (some "Backend Eng.".data)
    (some "k".data) (some stubResume) demoFont demoFont).contentDisposition
    = some "attachment; filename=\"Louis_Bailey_Acme_Inc__Backend_Eng_.pdf\"".data := by decide
example : (processBodyLine demoFont demoFont initState "· Frontend".data).ops
    = [.text 0 600 7700 "· Frontend".data 120 true] := by decide
example : jsSplitBoldParts "a **b** c".data = ["a ".data, "**b**".data, " c".data] := by decide
example : jsSplitBoldParts "a**".data = ["a**".data] := by decide
example : jsSplitBoldParts "**".data = ["**".data] := by decide
example : jsSplitBoldParts "***x***".data = ["*".data, "**x**".data, "*".data] := by decide
example : (drawTextWithBold demoFont demoFont "a **b** c".data 0 110).map Run.content
    = ["a ".data, "b".data, " c".data] := by decide
example : (drawTextWithBold demoFont demoFont "a**".data 0 110).map Run.content
    = ["a**".data] := by decide
example : removeStarPairs "a**".data = "a".data := by decide
example : ∀ p ∈ jsSplitBoldParts "a*b".data,
    hasStarPair p = false ∨ matchBoldAt p = some (p, []) := by decide
example : ∀ p ∈ jsSplitBoldParts "* **b** *".data,
    hasStarPair p = false ∨ matchBoldAt p = some (p, []) := by decide
example : ((drawTextWithBold demoFont demoFont "a*b".data 0 110).map Run.content).join
    = removeStarPairs "a*b".data := by decide
example : ((drawTextWithBold demoFont demoFont "* **b** *".data 0 110).map Run.content).join
    = removeStarPairs "* **b** *".data := by decide
example : classifyBodyLine "· Frontend".data = .skillsCategory "· Frontend".data := by decide
example : classifyBodyLine "Skills:".data = .sectionHeader "Skills:".data := by decide
example : classifyBodyLine "Senior Engineer at Acme Corp: 01/2020 - 02/2022".data
    = .jobEntry "Senior Engineer".data "Acme Corp".data "01/2020 - 02/2022".data := by decide
example : classifyBodyLine "".data = .blank := by decide
example : classifyBodyLine "hello world".data = .plain "hello world".data := by decide
example : jsSplit ' ' "a  b".data = ["a".data, [], "b".data] := by decide
example : jsTrim "  ab ".data = "ab".data := by decide
example : (7700 - 192 - 20 - 135 - 40 - 160 : Int) = 7153 := by decide
example : formatDate "06/2022 - Current".data = "Jun 2022 – Current".data := by decide
example : formatDate "Jan 2020 – Mar 2022".data = "Jan 2020 – Mar 2022".data := by decide
example : formatDate "13/2022".data = "undefined 2022".data := by decide
example : formatDate "00/2022".data = "undefined 2022".data := by decide
example : (parseResume "A\nB\nC\nD\nE\nF\n\nbody".data).body = "body".data := by decide
example : (parseResume "A\nB\nC\nD\nE\nF\n\nbody".data).headline = some "A".data := by decide
example : (parseResume "A\nB".data).body = "A\nB".data := by decide
example : wrapText "ab cd".data demoFont 110 120 = ["ab".data, "cd".data] := by decide
example : wrapText "".data demoFont 110 120 = [] := by decide
